import Mathlib

/-!
Verification of the Kana-Tower text alignment and validation engine
(`src/utils/textMapping.ts`).

Strings are modelled as `List Char`.  A JavaScript expression whose value is
either a string or `undefined` is modelled as `Option (List Char)` (`none`
standing for `undefined`); a single-character read `s[i]` that can fall out of
range is modelled as `Option Char` via `List.get?`.

The engine imports three external modules that are not part of this
repository's sources (`kanjiToKanaMapping`, `multipleReadings`,
`japaneseInput`).  Their functions are modelled as fields of an `Env`
record over which every theorem is universally quantified, matching the
spec's description of them as external collaborators specified only at the
interface boundary.
-/

namespace KanaTower

/-- A JavaScript string-or-`undefined` value. -/
abbrev JsStr := Option (List Char)

/-- Result record of `validateJapaneseInput` (external module
`japaneseInput`, spec §6 `SequentialInputValidator.check`). -/
structure JapaneseValidationResult where
  isValid : Bool
  isComplete : Bool
  canContinue : Bool
  confidence : Nat
  hint : Option (List Char)
  nextPossibleChars : Option (List (List Char))
  transformationPath : Option (List (List Char))
deriving DecidableEq

/-- `CharacterMapping` of `textMapping.ts` (lines 13-21). `inputChar` is
`Option Char` because the source stores `inputText[currentInputIndex]`
without a bound check in one branch (line 94), where the read can yield
`undefined`. -/
structure CharacterMapping where
  displayIndex : Nat
  inputIndex : Nat
  displayChar : Char
  inputChar : Option Char
  isKanji : Bool
  kanjiWord : Option (List Char) := none
  readingVariations : Option (List (List Char)) := none
deriving DecidableEq

/-- `TextMapping` of `textMapping.ts` (lines 26-31). -/
structure TextMapping where
  displayText : List Char
  inputText : List Char
  mappings : List CharacterMapping
  totalInputLength : Nat
deriving DecidableEq

/-- The external functions imported by `textMapping.ts` (line 6-8):
`generateReadingVariations`, `getPossibleReadings` from `multipleReadings`;
`isKanji`, `getKanaReading`, `hasKanaReading` from `kanjiToKanaMapping`;
`validateJapaneseInput` from `japaneseInput`.  `getKanaReading` takes a
string (either a single character or a compound substring).
`validateJapaneseInput`'s second argument is `JsStr` because the source can
pass it an `undefined` target character. -/
structure Env where
  isKanji : Char → Bool
  hasKanaReading : Char → Bool
  getKanaReading : List Char → Option (List Char)
  getPossibleReadings : List Char → List (List Char)
  generateReadingVariations : List Char → List Char → List (List Char)
  validateJapaneseInput : List Char → JsStr → JapaneseValidationResult

/-- Result of `splitTextForDisplay` (lines 203-207). -/
structure SplitResult where
  completedPart : List Char
  currentChar : List Char
  remainingPart : List Char
deriving DecidableEq

/-- Result of `validateInputAtPosition` (lines 289-294). -/
structure ValidationResult where
  isValid : Bool
  isComplete : Bool
  canContinue : Bool
  possibleChars : List JsStr
deriving DecidableEq

/-- State of the `createTextMapping` loop: the accumulated `mappings`
array together with the two cursors `displayIndex` and `inputIndex`. -/
structure AlignState where
  mappings : List CharacterMapping
  displayIndex : Nat
  inputIndex : Nat
deriving DecidableEq

/-- Walk of `new Set(xs)` insertion: keep each element not seen before and
record it as seen. -/
def dedupFirstAux {α : Type} [DecidableEq α] (seen : List α) : List α → List α
  | [] => []
  | a :: l =>
    if a ∈ seen then dedupFirstAux seen l
    else a :: dedupFirstAux (a :: seen) l

/-- `Array.from(new Set(xs))`: de-duplication keeping the first occurrence
of each element, in insertion order. -/
def dedupFirst {α : Type} [DecidableEq α] (l : List α) : List α :=
  dedupFirstAux [] l

/-- A single-character JS string built from an optionally-present char. -/
def jsStr (c : Option Char) : JsStr := c.map fun ch => [ch]

/-- Lines 61-72: the number of kana attributed to one kanji inside a
compound word.  If the single character has a (truthy, i.e. non-empty)
reading its length is used; otherwise the heuristic
`max(1, floor(remainingReading.length / remainingChars))`, where
`remainingReading = wordReading.substring(currentInputIndex - inputIndex)`
and `remainingChars` counts the characters of the word not yet processed
(current one included). -/
def compoundCharLen (env : Env) (wordReading : List Char) (iIdx c remainingChars : Nat)
    (ch : Char) : Nat :=
  match env.getKanaReading [ch] with
  | some (r0 :: rs) => (r0 :: rs).length
  | _ => max 1 ((wordReading.drop (c - iIdx)).length / remainingChars)

/-- The mapping entry pushed for one kana of a kanji's reading (lines
77-84 and 121-128): input position `k`, kanji display character `ch` at
display position `dpos`, attributed to `word`. -/
def kanjiKanaEntry (itext : List Char) (dpos : Nat) (ch : Char) (word : List Char)
    (k : Nat) : CharacterMapping :=
  { displayIndex := dpos, inputIndex := k, displayChar := ch,
    inputChar := itext.get? k, isKanji := true, kanjiWord := some word }

/-- The plain one-to-one mapping entry (lines 134-140 for an unmappable
kanji, with `isKanji := true`; lines 145-151 for a non-kanji character,
with `isKanji := false`; no `kanjiWord` in either case). -/
def oneToOneEntry (itext : List Char) (dIdx iIdx : Nat) (ch : Char)
    (kanjiFlag : Bool) : CharacterMapping :=
  { displayIndex := dIdx, inputIndex := iIdx, displayChar := ch,
    inputChar := itext.get? iIdx, isKanji := kanjiFlag }

/-- Lines 75-86 and 119-130: one mapping entry per kana of a kanji's
reading, at input positions `c + j` for `j < len`, skipping positions at or
beyond the end of the input text. -/
def kanjiKanaEntries (itext : List Char) (dpos : Nat) (ch : Char) (word : List Char)
    (c len : Nat) : List CharacterMapping :=
  (List.range len).filterMap fun j =>
    if c + j < itext.length then some (kanjiKanaEntry itext dpos ch word (c + j))
    else none

/-- Lines 56-100: the inner `for` loop over the `wordLength` characters of a
matched compound word.  The word's characters are walked in order; `dpos`
is `displayIndex + i` and `c` is `currentInputIndex`.  Returns the emitted
entries together with the final `currentInputIndex`. -/
def emitCompound (env : Env) (itext wordReading compound : List Char) (iIdx : Nat) :
    List Char → Nat → Nat → List CharacterMapping × Nat
  | [], _, c => ([], c)
  | ch :: rest, dpos, c =>
    if env.isKanji ch then
      let len := compoundCharLen env wordReading iIdx c (rest.length + 1) ch
      let r := emitCompound env itext wordReading compound iIdx rest (dpos + 1) (c + len)
      (kanjiKanaEntries itext dpos ch compound c len ++ r.1, r.2)
    else
      let r := emitCompound env itext wordReading compound iIdx rest (dpos + 1) (c + 1)
      ({ displayIndex := dpos, inputIndex := c, displayChar := ch,
         inputChar := itext.get? c, isKanji := false, kanjiWord := some compound } :: r.1,
       r.2)

/-- Lines 48-52: probe window lengths from `wl` down to `2`, longest first.
A candidate is accepted when `getKanaReading` returns a truthy (non-empty)
reading and the input text at the input cursor starts with exactly that
reading.  Returns `(wordLength, potentialWord, wordReading)` of the first
(longest) success. -/
def findCompoundAux (env : Env) (d itext : List Char) (dIdx iIdx : Nat) :
    Nat → Option (Nat × List Char × List Char)
  | 0 => none
  | 1 => none
  | wl + 2 =>
    let potentialWord := (d.drop dIdx).take (wl + 2)
    match env.getKanaReading potentialWord with
    | some (r0 :: rs) =>
        if (itext.drop iIdx).take (r0 :: rs).length = r0 :: rs then
          some (wl + 2, potentialWord, r0 :: rs)
        else
          findCompoundAux env d itext dIdx iIdx (wl + 1)
    | _ => findCompoundAux env d itext dIdx iIdx (wl + 1)

/-- The acceptance test of the compound probe at a single window length
`wl` (the condition of line 52), as a Boolean. -/
def compoundMatchesB (env : Env) (d itext : List Char) (dIdx iIdx wl : Nat) : Bool :=
  match env.getKanaReading ((d.drop dIdx).take wl) with
  | some r => decide (r ≠ []) && decide ((itext.drop iIdx).take r.length = r)
  | none => false

/-- Lines 41-157: the `while` loop of `createTextMapping`.  `fuel` bounds
the number of iterations; since every iteration advances `displayIndex` by
at least one and the guard requires `displayIndex < displayText.length`,
`fuel = displayText.length` (as used by `createTextMapping`) is always
sufficient (`createMappingsGo_fuel` below makes this precise). -/
def createMappingsGo (env : Env) (d itext : List Char) :
    Nat → Nat → Nat → AlignState
  | 0, dIdx, iIdx => ⟨[], dIdx, iIdx⟩
  | fuel + 1, dIdx, iIdx =>
    if dIdx < d.length ∧ iIdx < itext.length then
      match findCompoundAux env d itext dIdx iIdx (min 10 (d.length - dIdx)) with
      | some (wordLength, potentialWord, wordReading) =>
          -- lines 52-107: compound word match
          let e := emitCompound env itext wordReading potentialWord iIdx potentialWord dIdx iIdx
          let r := createMappingsGo env d itext fuel (dIdx + wordLength) e.2
          ⟨e.1 ++ r.mappings, r.displayIndex, r.inputIndex⟩
      | none =>
          match d.get? dIdx with
          | none => ⟨[], dIdx, iIdx⟩  -- unreachable: the guard gives dIdx < d.length
          | some displayChar =>
            if env.isKanji displayChar ∧ env.hasKanaReading displayChar then
              match env.getKanaReading [displayChar] with
              | some (r0 :: rs) =>
                  -- lines 117-131: kanji expanded to its kana reading
                  let ms := kanjiKanaEntries itext dIdx displayChar [displayChar] iIdx
                    (r0 :: rs).length
                  let r := createMappingsGo env d itext fuel (dIdx + 1)
                    (iIdx + (r0 :: rs).length)
                  ⟨ms ++ r.mappings, r.displayIndex, r.inputIndex⟩
              | _ =>
                  -- lines 132-142: kanji without a (truthy) reading, 1:1 fallback
                  let e := oneToOneEntry itext dIdx iIdx displayChar true
                  let r := createMappingsGo env d itext fuel (dIdx + 1) (iIdx + 1)
                  ⟨e :: r.mappings, r.displayIndex, r.inputIndex⟩
            else
              -- lines 143-153: non-kanji character, 1:1 mapping
              let e := oneToOneEntry itext dIdx iIdx displayChar false
              let r := createMappingsGo env d itext fuel (dIdx + 1) (iIdx + 1)
              ⟨e :: r.mappings, r.displayIndex, r.inputIndex⟩
    else ⟨[], dIdx, iIdx⟩

/-- `createTextMapping` (lines 36-165). -/
def createTextMapping (env : Env) (displayText inputText : List Char) : TextMapping :=
  let s := createMappingsGo env displayText inputText displayText.length 0 0
  { displayText := displayText, inputText := inputText, mappings := s.mappings,
    totalInputLength := inputText.length }

/-- `getTargetCharAtPosition` (lines 189-195): empty string when
`inputPosition >= mappings.length`, else `mappings[inputPosition]?.inputChar || ''`. -/
def getTargetCharAtPosition (m : TextMapping) (inputPosition : Nat) : List Char :=
  match m.mappings.get? inputPosition with
  | none => []
  | some e =>
    match e.inputChar with
    | some c => [c]
    | none => []

/-- `splitTextForDisplay` (lines 200-256). -/
def splitTextForDisplay (m : TextMapping) (currentInputPosition : Nat) : SplitResult :=
  match m.mappings.find? fun e => e.inputIndex == currentInputPosition with
  | none =>
      -- lines 211-218: all input finished
      ⟨m.displayText, [], []⟩
  | some currentMapping =>
    let displayPosition := currentMapping.displayIndex
    let currentDisplayChar := currentMapping.displayChar
    if currentMapping.isKanji then
      let kanjiMappings := m.mappings.filter fun e =>
        e.displayIndex == displayPosition && e.isKanji
      let isStillInputtingKanji := kanjiMappings.any fun e =>
        currentInputPosition ≤ e.inputIndex
      if isStillInputtingKanji then
        ⟨m.displayText.take displayPosition, [currentDisplayChar],
         m.displayText.drop (displayPosition + 1)⟩
      else
        ⟨m.displayText.take (displayPosition + 1), [],
         m.displayText.drop (displayPosition + 1)⟩
    else
      ⟨m.displayText.take displayPosition, [currentDisplayChar],
       m.displayText.drop (displayPosition + 1)⟩

/-- Lines 272-277: the second pass of `createAdvancedTextMapping`.  `index`
is the ordinal position of the entry in the `mappings` array;
`variation[index]` selects the character of each alternative full reading
at that ordinal, and `.filter(Boolean)` drops the `undefined` reads of
variations too short to cover the index. -/
def attachedVariations (variations : List (List Char)) (index : Nat) : List (List Char) :=
  variations.filterMap fun v => (v.get? index).map fun c => [c]

/-- The per-entry update of the second pass: only entries marked `isKanji`
receive `readingVariations`. -/
def attachVariationsGo (variations : List (List Char)) :
    Nat → List CharacterMapping → List CharacterMapping
  | _, [] => []
  | index, e :: rest =>
    (if e.isKanji then
       { e with readingVariations := some (attachedVariations variations index) }
     else e) :: attachVariationsGo variations (index + 1) rest

/-- `createAdvancedTextMapping` (lines 261-280). -/
def createAdvancedTextMapping (env : Env) (displayText baseInputText : List Char) :
    TextMapping :=
  let readingVariations := env.generateReadingVariations displayText baseInputText
  let baseMapping := createTextMapping env displayText baseInputText
  { baseMapping with
    mappings := attachVariationsGo readingVariations 0 baseMapping.mappings }

/-- Lines 309-325: the alternative-reading characters pushed into
`possibleChars`.  When `findIndex` fails it returns `-1` in JavaScript; the
guard `-1 < reading.length` then always holds and `reading[-1]` is
`undefined`, so one `undefined` is pushed per alternative reading. -/
def altReadingChars (env : Env) (m : TextMapping) (tm : CharacterMapping) (p : Nat) :
    List JsStr :=
  if tm.isKanji then
    match tm.kanjiWord with
    | some (w0 :: ws) =>
      let alternativeReadings := env.getPossibleReadings (w0 :: ws)
      if alternativeReadings.length > 0 then
        let kanjiMappings := m.mappings.filter fun e =>
          e.displayIndex == tm.displayIndex && e.isKanji
        match kanjiMappings.findIdx? fun e => e.inputIndex == p with
        | some charPositionInKanji =>
            alternativeReadings.filterMap fun reading =>
              if charPositionInKanji < reading.length then
                (reading.get? charPositionInKanji).map fun c => [c]
              else none
        | none => alternativeReadings.map fun _ => (none : JsStr)
      else []
    | _ => []
  else []

/-- Lines 328-330: the attached `readingVariations` of the target entry
(`undefined` is falsy and skipped; a present array is spread, its elements
being strings). -/
def variationChars (tm : CharacterMapping) : List JsStr :=
  match tm.readingVariations with
  | some vs => vs.map some
  | none => []

/-- Lines 306-332: the de-duplicated basic `possibleChars` set — the target
character, then the alternative-reading characters, then the attached
reading variations. -/
def basicPossibleChars (env : Env) (m : TextMapping) (tm : CharacterMapping) (p : Nat) :
    List JsStr :=
  dedupFirst (jsStr tm.inputChar :: (altReadingChars env m tm p ++ variationChars tm))

/-- Line 388: `transformationPath && transformationPath.length > 2`. -/
def transformationPathLong (jv : JapaneseValidationResult) : Bool :=
  match jv.transformationPath with
  | some path => decide (path.length > 2)
  | none => false

/-- Lines 383-385: the `nextPossibleChars` supplied by the sequential
validation result (`undefined` is falsy and contributes nothing). -/
def nextChars (jv : JapaneseValidationResult) : List JsStr :=
  match jv.nextPossibleChars with
  | some l => l.map some
  | none => []

/-- Lines 388-391: every character of the transformation chain, when the
chain is longer than 2 steps. -/
def transformationChainChars (jv : JapaneseValidationResult) : List JsStr :=
  if transformationPathLong jv then (jv.transformationPath.getD []).map some else []

/-- Lines 383-391: the extra characters appended to `possibleChars` from
the sequential validation result — `nextPossibleChars` when present, then
the whole transformation chain when longer than 2 steps. -/
def sequentialExtraChars (jv : JapaneseValidationResult) : List JsStr :=
  nextChars jv ++ transformationChainChars jv

/-- `validateInputAtPosition` (lines 285-401). -/
def validateInputAtPosition (env : Env) (m : TextMapping) (userInput : List Char)
    (inputPosition : Nat) : ValidationResult :=
  match m.mappings.get? inputPosition with
  | none => ⟨false, false, false, []⟩
  | some targetMapping =>
    let targetChar := jsStr targetMapping.inputChar
    let possibleChars := basicPossibleChars env m targetMapping inputPosition
    let japaneseValidation := env.validateJapaneseInput userInput targetChar
    let isValidBasic := decide (some userInput ∈ possibleChars)
    let isValid := isValidBasic || japaneseValidation.isValid
    let isComplete := decide (some userInput = targetChar) ||
      (japaneseValidation.isComplete && japaneseValidation.isValid)
    let canContinue := (isValidBasic && !isComplete) ||
      (japaneseValidation.isValid && japaneseValidation.canContinue)
    let allPossibleChars := dedupFirst (possibleChars ++ sequentialExtraChars japaneseValidation)
    ⟨isValid, isComplete, canContinue, allPossibleChars⟩

/-! ### Concrete environments used by witnesses and counterexamples -/

/-- The all-negative sequential validation result. -/
def jvFalse : JapaneseValidationResult :=
  ⟨false, false, false, 0, none, none, none⟩

/-- An environment with no kanji and no registered readings. -/
def envPlain : Env where
  isKanji := fun _ => false
  hasKanaReading := fun _ => false
  getKanaReading := fun _ => none
  getPossibleReadings := fun _ => []
  generateReadingVariations := fun _ _ => []
  validateJapaneseInput := fun _ _ => jvFalse

/-- An environment registering readings for 大学生, 大学, 大, 学, 生,
together with an alternative reading for the word 大学生 and one full
reading variation. -/
def envDaigaku : Env where
  isKanji := fun c => decide (c = '大' ∨ c = '学' ∨ c = '生')
  hasKanaReading := fun c => decide (c = '大' ∨ c = '学' ∨ c = '生')
  getKanaReading := fun w =>
    if w = ['大', '学', '生'] then some ['だ', 'い', 'が', 'く', 'せ', 'い']
    else if w = ['大', '学'] then some ['だ', 'い', 'が', 'く']
    else if w = ['大'] then some ['だ', 'い']
    else if w = ['学'] then some ['が', 'く']
    else if w = ['生'] then some ['せ', 'い']
    else none
  getPossibleReadings := fun w =>
    if w = ['大', '学', '生'] then [['だ', 'い', 'が', 'く', 'せ', 'い']] else []
  generateReadingVariations := fun _ _ => [['だ', 'い', 'が', 'く', 'せ', 'い']]
  validateJapaneseInput := fun _ _ => jvFalse

/-- An environment where only 学 is a kanji, with reading がく. -/
def envGaku : Env where
  isKanji := fun c => decide (c = '学')
  hasKanaReading := fun c => decide (c = '学')
  getKanaReading := fun w => if w = ['学'] then some ['が', 'く'] else none
  getPossibleReadings := fun _ => []
  generateReadingVariations := fun _ _ => []
  validateJapaneseInput := fun _ _ => jvFalse

/-- An adversarial environment: the compound 学あ is registered with the
one-kana reading が while the single character 学 keeps its two-kana
reading がく, and the sequential validator accepts everything. -/
def envOverrun : Env where
  isKanji := fun c => decide (c = '学')
  hasKanaReading := fun c => decide (c = '学')
  getKanaReading := fun w =>
    if w = ['学', 'あ'] then some ['が']
    else if w = ['学'] then some ['が', 'く']
    else none
  getPossibleReadings := fun _ => []
  generateReadingVariations := fun _ _ => []
  validateJapaneseInput := fun _ _ => ⟨true, true, true, 0, none, none, none⟩

/-! ### Helper lemmas -/

/-- Membership in the de-duplication walk: kept iff present in the rest of
the list and not seen before. -/
theorem mem_dedupFirstAux {α : Type} [DecidableEq α] (l : List α) :
    ∀ (seen : List α) (x : α), x ∈ dedupFirstAux seen l ↔ x ∈ l ∧ x ∉ seen := by
  induction l with
  | nil => intro seen x; simp [dedupFirstAux]
  | cons a l ih =>
    intro seen x
    rw [dedupFirstAux]
    by_cases ha : a ∈ seen
    · rw [if_pos ha, ih seen x]
      constructor
      · rintro ⟨h1, h2⟩
        exact ⟨List.mem_cons_of_mem _ h1, h2⟩
      · rintro ⟨h1, h2⟩
        rcases List.mem_cons.mp h1 with rfl | h1
        · exact absurd ha h2
        · exact ⟨h1, h2⟩
    · rw [if_neg ha]
      by_cases hxa : x = a
      · subst hxa
        constructor
        · intro _
          exact ⟨List.mem_cons_self x l, ha⟩
        · intro _
          exact List.mem_cons_self x (dedupFirstAux (x :: seen) l)
      · simp only [List.mem_cons, hxa, false_or]
        rw [ih (a :: seen) x]
        simp only [List.mem_cons, hxa, false_or]

/-- Membership is preserved by `dedupFirst`. -/
theorem mem_dedupFirst {α : Type} [DecidableEq α] (l : List α) (a : α) :
    a ∈ dedupFirst l ↔ a ∈ l := by
  rw [dedupFirst, mem_dedupFirstAux]
  simp

/-- The de-duplication walk produces a duplicate-free list. -/
theorem nodup_dedupFirstAux {α : Type} [DecidableEq α] (l : List α) :
    ∀ (seen : List α), (dedupFirstAux seen l).Nodup := by
  induction l with
  | nil => intro seen; simp [dedupFirstAux]
  | cons a l ih =>
    intro seen
    rw [dedupFirstAux]
    by_cases ha : a ∈ seen
    · rw [if_pos ha]
      exact ih seen
    · rw [if_neg ha]
      refine List.Nodup.cons ?_ (ih (a :: seen))
      intro hmem
      have := (mem_dedupFirstAux l (a :: seen) a).mp hmem
      exact this.2 (List.mem_cons_self a seen)

/-- `dedupFirst` produces a duplicate-free list. -/
theorem nodup_dedupFirst {α : Type} [DecidableEq α] (l : List α) :
    (dedupFirst l).Nodup :=
  nodup_dedupFirstAux l []

/-- A `filterMap` whose function always succeeds is a `map`. -/
theorem filterMap_eq_map_of_forall_some {α β : Type} (f : α → Option β) (g : α → β)
    (l : List α) (h : ∀ a ∈ l, f a = some (g a)) : l.filterMap f = l.map g := by
  induction l with
  | nil => rfl
  | cons a l ih =>
    rw [List.filterMap_cons, h a (List.mem_cons_self a l), List.map_cons,
      ih fun b hb => h b (List.mem_cons_of_mem _ hb)]

/-- `compoundCharLen` is always at least 1. -/
theorem compoundCharLen_pos (env : Env) (wordReading : List Char)
    (iIdx c remainingChars : Nat) (ch : Char) :
    1 ≤ compoundCharLen env wordReading iIdx c remainingChars ch := by
  unfold compoundCharLen
  cases h : env.getKanaReading [ch] with
  | none => exact Nat.le_max_left _ _
  | some r =>
    cases r with
    | nil => exact Nat.le_max_left _ _
    | cons r0 rs => simp

/-- Every entry produced by `kanjiKanaEntries` is a `kanjiKanaEntry` at an
in-range input position inside `[c, c + len)`. -/
theorem kanjiKanaEntries_mem {itext : List Char} {dpos : Nat} {ch : Char}
    {word : List Char} {c len : Nat} {e : CharacterMapping}
    (he : e ∈ kanjiKanaEntries itext dpos ch word c len) :
    ∃ k, c ≤ k ∧ k < c + len ∧ k < itext.length ∧
      e = kanjiKanaEntry itext dpos ch word k := by
  simp only [kanjiKanaEntries, List.mem_filterMap, List.mem_range] at he
  obtain ⟨j, hj, hfe⟩ := he
  split at hfe
  · rename_i hlt
    cases hfe
    exact ⟨c + j, Nat.le_add_right _ _, Nat.add_lt_add_left hj _, hlt, rfl⟩
  · cases hfe

/-- The `inputIndex` values of `kanjiKanaEntries` are strictly increasing. -/
theorem kanjiKanaEntries_pairwise (itext : List Char) (dpos : Nat) (ch : Char)
    (word : List Char) (c len : Nat) :
    (kanjiKanaEntries itext dpos ch word c len).Pairwise
      (fun a b => a.inputIndex < b.inputIndex) := by
  unfold kanjiKanaEntries
  have h := List.pairwise_lt_range len
  refine List.Pairwise.filterMap _ (fun a b hab x hx y hy => ?_) h
  split at hx
  · cases hx
    split at hy
    · cases hy
      simpa [kanjiKanaEntry] using hab
    · cases hy
  · cases hx

/-- With no truncation, `kanjiKanaEntries` yields `inputIndex` values
`c, c+1, ..., c+len-1` exactly. -/
theorem kanjiKanaEntries_map_inputIndex {itext : List Char} {dpos : Nat} {ch : Char}
    {word : List Char} {c len : Nat} (h : c + len ≤ itext.length) :
    (kanjiKanaEntries itext dpos ch word c len).map (fun e => e.inputIndex) =
      List.range' c len := by
  unfold kanjiKanaEntries
  rw [filterMap_eq_map_of_forall_some _ (fun j => kanjiKanaEntry itext dpos ch word (c + j))
    _ ?_]
  · rw [List.map_map, List.range'_eq_map_range]
    rfl
  · intro j hj
    simp only [List.mem_range] at hj
    rw [if_pos (by omega)]

/-- When `len ≥ 1` and the cursor is in range, the first kana entry exists. -/
theorem kanjiKanaEntries_cover (itext : List Char) (dpos : Nat) (ch : Char)
    (word : List Char) (c len : Nat) (hlen : 1 ≤ len) (hc : c < itext.length) :
    ∃ e ∈ kanjiKanaEntries itext dpos ch word c len, e.displayIndex = dpos := by
  refine ⟨kanjiKanaEntry itext dpos ch word (c + 0), ?_, rfl⟩
  simp only [kanjiKanaEntries, List.mem_filterMap, List.mem_range]
  exact ⟨0, hlen, by rw [if_pos (by omega)]⟩

/-- Step equation of `emitCompound` at a kanji character. -/
theorem emitCompound_cons_kanji {env : Env} {itext wordReading compound : List Char}
    {iIdx : Nat} {ch : Char} {rest : List Char} {dpos c : Nat}
    (hk : env.isKanji ch = true) :
    emitCompound env itext wordReading compound iIdx (ch :: rest) dpos c =
      (kanjiKanaEntries itext dpos ch compound c
          (compoundCharLen env wordReading iIdx c (rest.length + 1) ch) ++
        (emitCompound env itext wordReading compound iIdx rest (dpos + 1)
          (c + compoundCharLen env wordReading iIdx c (rest.length + 1) ch)).1,
       (emitCompound env itext wordReading compound iIdx rest (dpos + 1)
          (c + compoundCharLen env wordReading iIdx c (rest.length + 1) ch)).2) := by
  rw [emitCompound, if_pos hk]

/-- Step equation of `emitCompound` at a non-kanji character. -/
theorem emitCompound_cons_nonkanji {env : Env} {itext wordReading compound : List Char}
    {iIdx : Nat} {ch : Char} {rest : List Char} {dpos c : Nat}
    (hk : ¬ env.isKanji ch = true) :
    emitCompound env itext wordReading compound iIdx (ch :: rest) dpos c =
      ({ displayIndex := dpos, inputIndex := c, displayChar := ch,
         inputChar := itext.get? c, isKanji := false, kanjiWord := some compound } ::
        (emitCompound env itext wordReading compound iIdx rest (dpos + 1) (c + 1)).1,
       (emitCompound env itext wordReading compound iIdx rest (dpos + 1) (c + 1)).2) := by
  rw [emitCompound, if_neg hk]

/-- The compound-word cursor advances by at least one input position per
word character. -/
theorem emitCompound_cursor (env : Env) (itext wordReading compound : List Char)
    (iIdx : Nat) :
    ∀ (word : List Char) (dpos c : Nat),
      c + word.length ≤ (emitCompound env itext wordReading compound iIdx word dpos c).2 := by
  intro word
  induction word with
  | nil => intro dpos c; simp [emitCompound]
  | cons ch rest ih =>
    intro dpos c
    by_cases hk : env.isKanji ch = true
    · rw [emitCompound_cons_kanji hk]
      have h1 := compoundCharLen_pos env wordReading iIdx c (rest.length + 1) ch
      have h2 := ih (dpos + 1)
        (c + compoundCharLen env wordReading iIdx c (rest.length + 1) ch)
      simp only [List.length_cons]
      omega
    · rw [emitCompound_cons_nonkanji hk]
      have h2 := ih (dpos + 1) (c + 1)
      simp only [List.length_cons]
      omega

/-- Bounds and constant fields of the entries emitted for a compound word:
display positions lie in `[dpos, dpos + word.length)`, input positions in
`[c, final cursor)`, every entry is attributed to the compound, and the
stored display character is the display character at its display index
(provided `word` is the substring of the display text starting at `dpos`). -/
theorem emitCompound_mem (env : Env) (d itext wordReading compound : List Char)
    (iIdx : Nat) :
    ∀ (word : List Char) (dpos c : Nat),
      (∀ o, o < word.length → word.get? o = d.get? (dpos + o)) →
      ∀ e ∈ (emitCompound env itext wordReading compound iIdx word dpos c).1,
        dpos ≤ e.displayIndex ∧ e.displayIndex < dpos + word.length ∧
        c ≤ e.inputIndex ∧
        e.inputIndex < (emitCompound env itext wordReading compound iIdx word dpos c).2 ∧
        e.kanjiWord = some compound ∧
        d.get? e.displayIndex = some e.displayChar ∧
        e.inputChar = itext.get? e.inputIndex := by
  intro word
  induction word with
  | nil => intro dpos c _ e he; simp [emitCompound] at he
  | cons ch rest ih =>
    intro dpos c hw e he
    have hw0 : d.get? dpos = some ch := by
      have := hw 0 (by simp)
      simpa using this.symm
    have hwrest : ∀ o, o < rest.length → rest.get? o = d.get? (dpos + 1 + o) := by
      intro o ho
      have := hw (o + 1) (by simpa using Nat.succ_lt_succ ho)
      simpa [Nat.add_assoc, Nat.add_comm 1 o] using this
    by_cases hk : env.isKanji ch = true
    · rw [emitCompound_cons_kanji hk] at he ⊢
      set len := compoundCharLen env wordReading iIdx c (rest.length + 1) ch with hlen
      have hlenpos : 1 ≤ len := compoundCharLen_pos env wordReading iIdx c (rest.length + 1) ch
      simp only [List.mem_append] at he
      have hcur := emitCompound_cursor env itext wordReading compound iIdx rest (dpos + 1)
        (c + len)
      rcases he with he | he
      · obtain ⟨k, hk1, hk2, hk3, rfl⟩ := kanjiKanaEntries_mem he
        refine ⟨Nat.le_refl _, ?_, hk1, ?_, rfl, hw0, rfl⟩
        · dsimp only [kanjiKanaEntry, List.length_cons]
          omega
        · dsimp only [kanjiKanaEntry]
          omega
      · have := ih (dpos + 1) (c + len) hwrest e he
        simp only [List.length_cons]
        have h1 := this.1
        have h2 := this.2.1
        have h3 := this.2.2.1
        have h4 := this.2.2.2.1
        exact ⟨by omega, by omega, by omega, h4, this.2.2.2.2⟩
    · rw [emitCompound_cons_nonkanji hk] at he ⊢
      simp only [List.mem_cons] at he
      have hcur := emitCompound_cursor env itext wordReading compound iIdx rest (dpos + 1)
        (c + 1)
      rcases he with rfl | he
      · refine ⟨Nat.le_refl _, ?_, Nat.le_refl _, ?_, rfl, hw0, rfl⟩
        · dsimp only [List.length_cons]
          omega
        · dsimp only
          omega
      · have := ih (dpos + 1) (c + 1) hwrest e he
        simp only [List.length_cons]
        have h1 := this.1
        have h2 := this.2.1
        have h3 := this.2.2.1
        have h4 := this.2.2.2.1
        exact ⟨by omega, by omega, by omega, h4, this.2.2.2.2⟩

/-- Entries emitted for a compound word have strictly increasing
`inputIndex` values. -/
theorem emitCompound_pairwise_input (env : Env) (d itext wordReading compound : List Char)
    (iIdx : Nat) :
    ∀ (word : List Char) (dpos c : Nat),
      (∀ o, o < word.length → word.get? o = d.get? (dpos + o)) →
      (emitCompound env itext wordReading compound iIdx word dpos c).1.Pairwise
        (fun a b => a.inputIndex < b.inputIndex) := by
  intro word
  induction word with
  | nil => intro dpos c _; simp [emitCompound]
  | cons ch rest ih =>
    intro dpos c hw
    have hwrest : ∀ o, o < rest.length → rest.get? o = d.get? (dpos + 1 + o) := by
      intro o ho
      have := hw (o + 1) (by simpa using Nat.succ_lt_succ ho)
      simpa [Nat.add_assoc, Nat.add_comm 1 o] using this
    by_cases hk : env.isKanji ch = true
    · rw [emitCompound_cons_kanji hk]
      set len := compoundCharLen env wordReading iIdx c (rest.length + 1) ch with hlen
      rw [List.pairwise_append]
      refine ⟨kanjiKanaEntries_pairwise _ _ _ _ _ _, ih (dpos + 1) (c + len) hwrest, ?_⟩
      intro a ha b hb
      obtain ⟨k, hk1, hk2, hk3, rfl⟩ := kanjiKanaEntries_mem ha
      have hbm := emitCompound_mem env d itext wordReading compound iIdx rest (dpos + 1)
        (c + len) hwrest b hb
      simp only [kanjiKanaEntry]
      omega
    · rw [emitCompound_cons_nonkanji hk]
      rw [List.pairwise_cons]
      refine ⟨?_, ih (dpos + 1) (c + 1) hwrest⟩
      intro b hb
      have hbm := emitCompound_mem env d itext wordReading compound iIdx rest (dpos + 1)
        (c + 1) hwrest b hb
      simp only
      omega

/-- Entries emitted for a compound word have non-decreasing `displayIndex`
values. -/
theorem emitCompound_pairwise_display (env : Env) (d itext wordReading compound : List Char)
    (iIdx : Nat) :
    ∀ (word : List Char) (dpos c : Nat),
      (∀ o, o < word.length → word.get? o = d.get? (dpos + o)) →
      (emitCompound env itext wordReading compound iIdx word dpos c).1.Pairwise
        (fun a b => a.displayIndex ≤ b.displayIndex) := by
  intro word
  induction word with
  | nil => intro dpos c _; simp [emitCompound]
  | cons ch rest ih =>
    intro dpos c hw
    have hwrest : ∀ o, o < rest.length → rest.get? o = d.get? (dpos + 1 + o) := by
      intro o ho
      have := hw (o + 1) (by simpa using Nat.succ_lt_succ ho)
      simpa [Nat.add_assoc, Nat.add_comm 1 o] using this
    by_cases hk : env.isKanji ch = true
    · rw [emitCompound_cons_kanji hk]
      set len := compoundCharLen env wordReading iIdx c (rest.length + 1) ch with hlen
      rw [List.pairwise_append]
      refine ⟨?_, ih (dpos + 1) (c + len) hwrest, ?_⟩
      · refine List.pairwise_of_forall_mem_list ?_
        intro a ha b hb
        obtain ⟨k, _, _, _, rfl⟩ := kanjiKanaEntries_mem ha
        obtain ⟨k2, _, _, _, rfl⟩ := kanjiKanaEntries_mem hb
        simp [kanjiKanaEntry]
      · intro a ha b hb
        obtain ⟨k, hk1, hk2, hk3, rfl⟩ := kanjiKanaEntries_mem ha
        have hbm := emitCompound_mem env d itext wordReading compound iIdx rest (dpos + 1)
          (c + len) hwrest b hb
        simp only [kanjiKanaEntry]
        omega
    · rw [emitCompound_cons_nonkanji hk]
      rw [List.pairwise_cons]
      refine ⟨?_, ih (dpos + 1) (c + 1) hwrest⟩
      intro b hb
      have hbm := emitCompound_mem env d itext wordReading compound iIdx rest (dpos + 1)
        (c + 1) hwrest b hb
      simp only
      omega

/-- Within one compound word, two entries at the same display position
come from the same word character and therefore agree on `isKanji`. -/
theorem emitCompound_same_dp_same_kanji (env : Env)
    (d itext wordReading compound : List Char) (iIdx : Nat) :
    ∀ (word : List Char) (dpos c : Nat),
      (∀ o, o < word.length → word.get? o = d.get? (dpos + o)) →
      ∀ a ∈ (emitCompound env itext wordReading compound iIdx word dpos c).1,
      ∀ b ∈ (emitCompound env itext wordReading compound iIdx word dpos c).1,
        a.displayIndex = b.displayIndex → a.isKanji = b.isKanji := by
  intro word
  induction word with
  | nil => intro dpos c _ a ha; simp [emitCompound] at ha
  | cons ch rest ih =>
    intro dpos c hw a ha b hb hdp
    have hwrest : ∀ o, o < rest.length → rest.get? o = d.get? (dpos + 1 + o) := by
      intro o ho
      have := hw (o + 1) (by simpa using Nat.succ_lt_succ ho)
      simpa [Nat.add_assoc, Nat.add_comm 1 o] using this
    by_cases hk : env.isKanji ch = true
    · rw [emitCompound_cons_kanji hk] at ha hb
      set len := compoundCharLen env wordReading iIdx c (rest.length + 1) ch with hlen
      rcases List.mem_append.mp ha with ha' | ha' <;>
        rcases List.mem_append.mp hb with hb' | hb'
      · obtain ⟨k1, _, _, _, rfl⟩ := kanjiKanaEntries_mem ha'
        obtain ⟨k2, _, _, _, rfl⟩ := kanjiKanaEntries_mem hb'
        rfl
      · obtain ⟨k1, _, _, _, rfl⟩ := kanjiKanaEntries_mem ha'
        have := (emitCompound_mem env d itext wordReading compound iIdx rest (dpos + 1)
          (c + len) hwrest b hb').1
        simp only [kanjiKanaEntry] at hdp
        omega
      · obtain ⟨k2, _, _, _, rfl⟩ := kanjiKanaEntries_mem hb'
        have := (emitCompound_mem env d itext wordReading compound iIdx rest (dpos + 1)
          (c + len) hwrest a ha').1
        simp only [kanjiKanaEntry] at hdp
        omega
      · exact ih (dpos + 1) (c + len) hwrest a ha' b hb' hdp
    · rw [emitCompound_cons_nonkanji hk] at ha hb
      rcases List.mem_cons.mp ha with rfl | ha' <;>
        rcases List.mem_cons.mp hb with rfl | hb'
      · rfl
      · have := (emitCompound_mem env d itext wordReading compound iIdx rest (dpos + 1)
          (c + 1) hwrest b hb').1
        simp only at hdp
        omega
      · have := (emitCompound_mem env d itext wordReading compound iIdx rest (dpos + 1)
          (c + 1) hwrest a ha').1
        simp only at hdp
        omega
      · exact ih (dpos + 1) (c + 1) hwrest a ha' b hb' hdp

/-- When the final compound cursor stays within the input text (no
truncation), the emitted `inputIndex` values are exactly the consecutive
range from the starting cursor to the final cursor. -/
theorem emitCompound_map_inputIndex (env : Env) (itext wordReading compound : List Char)
    (iIdx : Nat) :
    ∀ (word : List Char) (dpos c : Nat),
      (emitCompound env itext wordReading compound iIdx word dpos c).2 ≤ itext.length →
      (emitCompound env itext wordReading compound iIdx word dpos c).1.map
          (fun e => e.inputIndex) =
        List.range' c ((emitCompound env itext wordReading compound iIdx word dpos c).2 - c) := by
  intro word
  induction word with
  | nil => intro dpos c _; simp [emitCompound]
  | cons ch rest ih =>
    intro dpos c h
    by_cases hk : env.isKanji ch = true
    · rw [emitCompound_cons_kanji hk] at h ⊢
      set len := compoundCharLen env wordReading iIdx c (rest.length + 1) ch with hlen
      have hcur := emitCompound_cursor env itext wordReading compound iIdx rest (dpos + 1)
        (c + len)
      rw [List.map_append, ih (dpos + 1) (c + len) h,
        kanjiKanaEntries_map_inputIndex (by omega)]
      have harith :
          (emitCompound env itext wordReading compound iIdx rest (dpos + 1) (c + len)).2 - c =
            ((emitCompound env itext wordReading compound iIdx rest (dpos + 1)
              (c + len)).2 - (c + len)) + len := by omega
      rw [harith, ← List.range'_append c len _ 1]
      simp [Nat.one_mul]
    · rw [emitCompound_cons_nonkanji hk] at h ⊢
      have hcur := emitCompound_cursor env itext wordReading compound iIdx rest (dpos + 1)
        (c + 1)
      rw [List.map_cons, ih (dpos + 1) (c + 1) h]
      have harith :
          (emitCompound env itext wordReading compound iIdx rest (dpos + 1) (c + 1)).2 - c =
            ((emitCompound env itext wordReading compound iIdx rest (dpos + 1)
              (c + 1)).2 - (c + 1)) + 1 := by omega
      rw [harith, List.range'_succ]

/-- When the final compound cursor stays within the input text, every
display position covered by the compound word receives at least one
mapping entry. -/
theorem emitCompound_cover (env : Env) (itext wordReading compound : List Char)
    (iIdx : Nat) :
    ∀ (word : List Char) (dpos c : Nat),
      (emitCompound env itext wordReading compound iIdx word dpos c).2 ≤ itext.length →
      ∀ o, o < word.length →
        ∃ e ∈ (emitCompound env itext wordReading compound iIdx word dpos c).1,
          e.displayIndex = dpos + o := by
  intro word
  induction word with
  | nil => intro dpos c _ o ho; simp at ho
  | cons ch rest ih =>
    intro dpos c h o ho
    by_cases hk : env.isKanji ch = true
    · rw [emitCompound_cons_kanji hk] at h ⊢
      set len := compoundCharLen env wordReading iIdx c (rest.length + 1) ch with hlen
      have hlenpos := compoundCharLen_pos env wordReading iIdx c (rest.length + 1) ch
      have hcur := emitCompound_cursor env itext wordReading compound iIdx rest (dpos + 1)
        (c + len)
      cases o with
      | zero =>
        obtain ⟨e, he, hedp⟩ := kanjiKanaEntries_cover itext dpos ch compound c len
          hlenpos (by omega)
        exact ⟨e, List.mem_append_left _ he, by omega⟩
      | succ o' =>
        obtain ⟨e, he, hedp⟩ := ih (dpos + 1) (c + len) h o' (by simpa using ho)
        exact ⟨e, List.mem_append_right _ he, by omega⟩
    · rw [emitCompound_cons_nonkanji hk] at h ⊢
      cases o with
      | zero =>
        exact ⟨_, List.mem_cons_self _ _, rfl⟩
      | succ o' =>
        obtain ⟨e, he, hedp⟩ := ih (dpos + 1) (c + 1) h o' (by simpa using ho)
        exact ⟨e, List.mem_cons_of_mem _ he, by omega⟩

/-- Specification of the compound-word probe: a successful probe returns a
window length between 2 and the starting window, the matching substring of
the display text, its registered (non-empty) reading that the remaining
input text starts with, and no longer window in range matches — the
longest-first policy. -/
theorem findCompoundAux_spec (env : Env) (d itext : List Char) (dIdx iIdx : Nat) :
    ∀ (wlStart wl : Nat) (w r : List Char),
      findCompoundAux env d itext dIdx iIdx wlStart = some (wl, w, r) →
      2 ≤ wl ∧ wl ≤ wlStart ∧ w = (d.drop dIdx).take wl ∧
        env.getKanaReading w = some r ∧ r ≠ [] ∧
        (itext.drop iIdx).take r.length = r ∧
        ∀ wl2, wl < wl2 → wl2 ≤ wlStart →
          compoundMatchesB env d itext dIdx iIdx wl2 = false := by
  intro wlStart
  induction wlStart using Nat.strong_induction_on with
  | _ n ih =>
    intro wl w r h
    match n, h with
    | 0, h => simp [findCompoundAux] at h
    | 1, h => simp [findCompoundAux] at h
    | wl' + 2, h =>
      have hBfalse : compoundMatchesB env d itext dIdx iIdx (wl' + 2) = false →
          (2 ≤ wl ∧ wl ≤ wl' + 1 ∧ w = (d.drop dIdx).take wl ∧
            env.getKanaReading w = some r ∧ r ≠ [] ∧
            (itext.drop iIdx).take r.length = r ∧
            ∀ wl2, wl < wl2 → wl2 ≤ wl' + 1 →
              compoundMatchesB env d itext dIdx iIdx wl2 = false) →
          2 ≤ wl ∧ wl ≤ wl' + 2 ∧ w = (d.drop dIdx).take wl ∧
            env.getKanaReading w = some r ∧ r ≠ [] ∧
            (itext.drop iIdx).take r.length = r ∧
            ∀ wl2, wl < wl2 → wl2 ≤ wl' + 2 →
              compoundMatchesB env d itext dIdx iIdx wl2 = false := by
        intro hB hprev
        obtain ⟨p1, p2, p3, p4, p5, p6, p7⟩ := hprev
        refine ⟨p1, by omega, p3, p4, p5, p6, ?_⟩
        intro wl2 hlt hle
        rcases Nat.lt_or_ge wl2 (wl' + 2) with hcase | hcase
        · exact p7 wl2 hlt (by omega)
        · have hwl2 : wl2 = wl' + 2 := by omega
          subst hwl2
          exact hB
      rcases hread : env.getKanaReading ((d.drop dIdx).take (wl' + 2)) with _ | rr
      · have h2 : findCompoundAux env d itext dIdx iIdx (wl' + 2) =
            findCompoundAux env d itext dIdx iIdx (wl' + 1) := by
          rw [findCompoundAux, hread]
        rw [h2] at h
        exact hBfalse (by rw [compoundMatchesB, hread]) (ih (wl' + 1) (by omega) wl w r h)
      · cases rr with
        | nil =>
          have h2 : findCompoundAux env d itext dIdx iIdx (wl' + 2) =
              findCompoundAux env d itext dIdx iIdx (wl' + 1) := by
            rw [findCompoundAux, hread]
          rw [h2] at h
          exact hBfalse (by rw [compoundMatchesB, hread]; simp)
            (ih (wl' + 1) (by omega) wl w r h)
        | cons r0 rs =>
          by_cases htake : (itext.drop iIdx).take (r0 :: rs).length = r0 :: rs
          · have h2 : findCompoundAux env d itext dIdx iIdx (wl' + 2) =
                some (wl' + 2, (d.drop dIdx).take (wl' + 2), r0 :: rs) := by
              simp only [findCompoundAux, hread]
              rw [if_pos htake]
            rw [h2] at h
            rw [Option.some.injEq, Prod.mk.injEq, Prod.mk.injEq] at h
            obtain ⟨h1, h3, h4⟩ := h
            subst h1
            subst h3
            subst h4
            refine ⟨by omega, Nat.le_refl _, rfl, hread, by simp, htake, ?_⟩
            intro wl2 hlt hle
            omega
          · have h2 : findCompoundAux env d itext dIdx iIdx (wl' + 2) =
                findCompoundAux env d itext dIdx iIdx (wl' + 1) := by
              simp only [findCompoundAux, hread]
              rw [if_neg htake]
            rw [h2] at h
            refine hBfalse ?_ (ih (wl' + 1) (by omega) wl w r h)
            rw [compoundMatchesB, hread]
            have hd : decide ((itext.drop iIdx).take (r0 :: rs).length = r0 :: rs) = false :=
              decide_eq_false htake
            show (decide ((r0 :: rs) ≠ []) &&
              decide ((itext.drop iIdx).take (r0 :: rs).length = r0 :: rs)) = false
            rw [hd, Bool.and_false]

/-- Step equation of the alignment loop when the guard fails. -/
theorem createMappingsGo_stop {env : Env} {d itext : List Char} {fuel dIdx iIdx : Nat}
    (hg : ¬(dIdx < d.length ∧ iIdx < itext.length)) :
    createMappingsGo env d itext (fuel + 1) dIdx iIdx = ⟨[], dIdx, iIdx⟩ := by
  rw [createMappingsGo, if_neg hg]

/-- Step equation of the alignment loop on a compound-word match. -/
theorem createMappingsGo_compound {env : Env} {d itext : List Char} {fuel dIdx iIdx : Nat}
    {wl : Nat} {w r : List Char}
    (hg : dIdx < d.length ∧ iIdx < itext.length)
    (hfind : findCompoundAux env d itext dIdx iIdx (min 10 (d.length - dIdx)) =
      some (wl, w, r)) :
    createMappingsGo env d itext (fuel + 1) dIdx iIdx =
      ⟨(emitCompound env itext r w iIdx w dIdx iIdx).1 ++
          (createMappingsGo env d itext fuel (dIdx + wl)
            (emitCompound env itext r w iIdx w dIdx iIdx).2).mappings,
        (createMappingsGo env d itext fuel (dIdx + wl)
          (emitCompound env itext r w iIdx w dIdx iIdx).2).displayIndex,
        (createMappingsGo env d itext fuel (dIdx + wl)
          (emitCompound env itext r w iIdx w dIdx iIdx).2).inputIndex⟩ := by
  rw [createMappingsGo, if_pos hg, hfind]

/-- Step equation of the alignment loop on a single kanji with a known
non-empty reading. -/
theorem createMappingsGo_kanji {env : Env} {d itext : List Char} {fuel dIdx iIdx : Nat}
    {ch r0 : Char} {rs : List Char}
    (hg : dIdx < d.length ∧ iIdx < itext.length)
    (hfind : findCompoundAux env d itext dIdx iIdx (min 10 (d.length - dIdx)) = none)
    (hch : d.get? dIdx = some ch)
    (hik : env.isKanji ch = true) (hhr : env.hasKanaReading ch = true)
    (hr : env.getKanaReading [ch] = some (r0 :: rs)) :
    createMappingsGo env d itext (fuel + 1) dIdx iIdx =
      ⟨kanjiKanaEntries itext dIdx ch [ch] iIdx (r0 :: rs).length ++
          (createMappingsGo env d itext fuel (dIdx + 1)
            (iIdx + (r0 :: rs).length)).mappings,
        (createMappingsGo env d itext fuel (dIdx + 1)
          (iIdx + (r0 :: rs).length)).displayIndex,
        (createMappingsGo env d itext fuel (dIdx + 1)
          (iIdx + (r0 :: rs).length)).inputIndex⟩ := by
  rw [createMappingsGo, if_pos hg, hfind]
  simp only [hch, hik, hhr, hr, and_self, if_true]

/-- Step equation of the alignment loop on a kanji whose reading is absent
or empty (1:1 fallback, `isKanji := true`, no `kanjiWord`). -/
theorem createMappingsGo_kanji_fallback {env : Env} {d itext : List Char}
    {fuel dIdx iIdx : Nat} {ch : Char}
    (hg : dIdx < d.length ∧ iIdx < itext.length)
    (hfind : findCompoundAux env d itext dIdx iIdx (min 10 (d.length - dIdx)) = none)
    (hch : d.get? dIdx = some ch)
    (hik : env.isKanji ch = true) (hhr : env.hasKanaReading ch = true)
    (hr : env.getKanaReading [ch] = none ∨ env.getKanaReading [ch] = some []) :
    createMappingsGo env d itext (fuel + 1) dIdx iIdx =
      ⟨oneToOneEntry itext dIdx iIdx ch true ::
          (createMappingsGo env d itext fuel (dIdx + 1) (iIdx + 1)).mappings,
        (createMappingsGo env d itext fuel (dIdx + 1) (iIdx + 1)).displayIndex,
        (createMappingsGo env d itext fuel (dIdx + 1) (iIdx + 1)).inputIndex⟩ := by
  rw [createMappingsGo, if_pos hg, hfind]
  rcases hr with hr | hr
  · simp only [hch, hik, hhr, hr, and_self, if_true]
  · simp only [hch, hik, hhr, hr, and_self, if_true]

/-- Step equation of the alignment loop on a non-kanji character (or a
kanji for which `hasKanaReading` is false): plain 1:1 mapping. -/
theorem createMappingsGo_plain {env : Env} {d itext : List Char}
    {fuel dIdx iIdx : Nat} {ch : Char}
    (hg : dIdx < d.length ∧ iIdx < itext.length)
    (hfind : findCompoundAux env d itext dIdx iIdx (min 10 (d.length - dIdx)) = none)
    (hch : d.get? dIdx = some ch)
    (hik : ¬(env.isKanji ch = true ∧ env.hasKanaReading ch = true)) :
    createMappingsGo env d itext (fuel + 1) dIdx iIdx =
      ⟨oneToOneEntry itext dIdx iIdx ch false ::
          (createMappingsGo env d itext fuel (dIdx + 1) (iIdx + 1)).mappings,
        (createMappingsGo env d itext fuel (dIdx + 1) (iIdx + 1)).displayIndex,
        (createMappingsGo env d itext fuel (dIdx + 1) (iIdx + 1)).inputIndex⟩ := by
  rw [createMappingsGo, if_pos hg, hfind]
  simp only [hch, if_neg hik]

/-- Fuel adequacy: since every loop iteration advances the display cursor
by at least one, any two fuel amounts that cover the remaining display
length produce the same run.  In particular the fuel `displayText.length`
used by `createTextMapping` behaves like the unbounded `while` loop. -/
theorem createMappingsGo_fuel (env : Env) (d itext : List Char) :
    ∀ (fuel fuel' dIdx iIdx : Nat), d.length ≤ fuel + dIdx → d.length ≤ fuel' + dIdx →
      createMappingsGo env d itext fuel dIdx iIdx =
        createMappingsGo env d itext fuel' dIdx iIdx := by
  intro fuel
  induction fuel with
  | zero =>
    intro fuel' dIdx iIdx h h'
    cases fuel' with
    | zero => rfl
    | succ f' =>
      rw [createMappingsGo_stop (by omega)]
      rfl
  | succ fuel ih =>
    intro fuel' dIdx iIdx h h'
    cases fuel' with
    | zero =>
      rw [createMappingsGo_stop (by omega)]
      rfl
    | succ f' =>
      by_cases hg : dIdx < d.length ∧ iIdx < itext.length
      · rcases hfind : findCompoundAux env d itext dIdx iIdx (min 10 (d.length - dIdx)) with
          _ | ⟨wl, w, r⟩
        · obtain ⟨ch, hch⟩ : ∃ ch, d.get? dIdx = some ch := by
            rw [List.get?_eq_get hg.1]
            exact ⟨_, rfl⟩
          by_cases hik : env.isKanji ch = true ∧ env.hasKanaReading ch = true
          · rcases hr : env.getKanaReading [ch] with _ | rr
            · rw [createMappingsGo_kanji_fallback hg hfind hch hik.1 hik.2 (Or.inl hr),
                createMappingsGo_kanji_fallback hg hfind hch hik.1 hik.2 (Or.inl hr),
                ih f' (dIdx + 1) (iIdx + 1) (by omega) (by omega)]
            · cases rr with
              | nil =>
                rw [createMappingsGo_kanji_fallback hg hfind hch hik.1 hik.2 (Or.inr hr),
                  createMappingsGo_kanji_fallback hg hfind hch hik.1 hik.2 (Or.inr hr),
                  ih f' (dIdx + 1) (iIdx + 1) (by omega) (by omega)]
              | cons r0 rs =>
                rw [createMappingsGo_kanji hg hfind hch hik.1 hik.2 hr,
                  createMappingsGo_kanji hg hfind hch hik.1 hik.2 hr,
                  ih f' (dIdx + 1) (iIdx + (r0 :: rs).length) (by omega) (by omega)]
          · rw [createMappingsGo_plain hg hfind hch hik,
              createMappingsGo_plain hg hfind hch hik,
              ih f' (dIdx + 1) (iIdx + 1) (by omega) (by omega)]
        · have hwl2 := (findCompoundAux_spec env d itext dIdx iIdx
            (min 10 (d.length - dIdx)) wl w r hfind).1
          rw [createMappingsGo_compound hg hfind, createMappingsGo_compound hg hfind,
            ih f' (dIdx + wl) (emitCompound env itext r w iIdx w dIdx iIdx).2
              (by omega) (by omega)]
      · rw [createMappingsGo_stop hg, createMappingsGo_stop hg]

/-- Facts about the word returned by a successful compound probe started
at `min 10 (d.length - dIdx)`: its length is the returned window length and
it is the substring of the display text at `dIdx`. -/
theorem findCompound_word_facts {env : Env} {d itext : List Char} {dIdx iIdx : Nat}
    {wl : Nat} {w r : List Char}
    (hfind : findCompoundAux env d itext dIdx iIdx (min 10 (d.length - dIdx)) =
      some (wl, w, r)) :
    2 ≤ wl ∧ wl ≤ d.length - dIdx ∧ w.length = wl ∧
      (∀ o, o < w.length → w.get? o = d.get? (dIdx + o)) := by
  obtain ⟨h2, hle, hw, -, -, -, -⟩ :=
    findCompoundAux_spec env d itext dIdx iIdx (min 10 (d.length - dIdx)) wl w r hfind
  have hle2 : wl ≤ d.length - dIdx := le_trans hle (Nat.min_le_right _ _)
  have hlen : w.length = wl := by
    rw [hw, List.length_take, List.length_drop]
    omega
  refine ⟨h2, hle2, hlen, ?_⟩
  intro o ho
  rw [hlen] at ho
  rw [hw, List.get?_take ho, List.get?_drop]

/-- The alignment loop never moves either cursor backwards. -/
theorem createMappingsGo_cursor (env : Env) (d itext : List Char) :
    ∀ (fuel dIdx iIdx : Nat),
      dIdx ≤ (createMappingsGo env d itext fuel dIdx iIdx).displayIndex ∧
      iIdx ≤ (createMappingsGo env d itext fuel dIdx iIdx).inputIndex := by
  intro fuel
  induction fuel with
  | zero => intro dIdx iIdx; exact ⟨Nat.le_refl _, Nat.le_refl _⟩
  | succ fuel ih =>
    intro dIdx iIdx
    by_cases hg : dIdx < d.length ∧ iIdx < itext.length
    · rcases hfind : findCompoundAux env d itext dIdx iIdx (min 10 (d.length - dIdx)) with
        _ | ⟨wl, w, r⟩
      · obtain ⟨ch, hch⟩ : ∃ ch, d.get? dIdx = some ch := by
          rw [List.get?_eq_get hg.1]
          exact ⟨_, rfl⟩
        by_cases hik : env.isKanji ch = true ∧ env.hasKanaReading ch = true
        · rcases hr : env.getKanaReading [ch] with _ | rr
          · rw [createMappingsGo_kanji_fallback hg hfind hch hik.1 hik.2 (Or.inl hr)]
            dsimp only
            have := ih (dIdx + 1) (iIdx + 1)
            exact ⟨by omega, by omega⟩
          · cases rr with
            | nil =>
              rw [createMappingsGo_kanji_fallback hg hfind hch hik.1 hik.2 (Or.inr hr)]
              dsimp only
              have := ih (dIdx + 1) (iIdx + 1)
              exact ⟨by omega, by omega⟩
            | cons r0 rs =>
              rw [createMappingsGo_kanji hg hfind hch hik.1 hik.2 hr]
              dsimp only
              have := ih (dIdx + 1) (iIdx + (r0 :: rs).length)
              have h1 := this.1
              have h2 := this.2
              refine ⟨by omega, ?_⟩
              simp only [List.length_cons] at h2 ⊢
              omega
        · rw [createMappingsGo_plain hg hfind hch hik]
          dsimp only
          have := ih (dIdx + 1) (iIdx + 1)
          exact ⟨by omega, by omega⟩
      · rw [createMappingsGo_compound hg hfind]
        dsimp only
        have hcur := emitCompound_cursor env itext r w iIdx w dIdx iIdx
        have := ih (dIdx + wl) (emitCompound env itext r w iIdx w dIdx iIdx).2
        exact ⟨by omega, by omega⟩
    · rw [createMappingsGo_stop hg]
      exact ⟨Nat.le_refl _, Nat.le_refl _⟩

/-- Composition of the per-iteration entry invariants: a block of entries
confined to display positions `[dLo, dMid)` and input positions
`[iLo, iMid)` followed by entries at display positions `≥ dMid` and input
positions `[iMid, iHi)`. -/
theorem entries_inv_append (d : List Char) (block rest : List CharacterMapping)
    (dLo dMid iLo iMid iHi : Nat)
    (hbm : ∀ e ∈ block, dLo ≤ e.displayIndex ∧ e.displayIndex < dMid ∧
      iLo ≤ e.inputIndex ∧ e.inputIndex < iMid ∧
      d.get? e.displayIndex = some e.displayChar)
    (hrm : ∀ e ∈ rest, dMid ≤ e.displayIndex ∧ iMid ≤ e.inputIndex ∧
      e.inputIndex < iHi ∧ d.get? e.displayIndex = some e.displayChar)
    (hdm : dLo ≤ dMid) (him : iLo ≤ iMid) (hih : iMid ≤ iHi)
    (hbpi : block.Pairwise fun a b => a.inputIndex < b.inputIndex)
    (hrpi : rest.Pairwise fun a b => a.inputIndex < b.inputIndex)
    (hbpd : block.Pairwise fun a b => a.displayIndex ≤ b.displayIndex)
    (hrpd : rest.Pairwise fun a b => a.displayIndex ≤ b.displayIndex)
    (hbs : ∀ a ∈ block, ∀ b ∈ block, a.displayIndex = b.displayIndex →
      a.kanjiWord = b.kanjiWord ∧ a.isKanji = b.isKanji)
    (hrs : ∀ a ∈ rest, ∀ b ∈ rest, a.displayIndex = b.displayIndex →
      a.kanjiWord = b.kanjiWord ∧ a.isKanji = b.isKanji) :
    (∀ e ∈ block ++ rest, dLo ≤ e.displayIndex ∧ iLo ≤ e.inputIndex ∧
      e.inputIndex < iHi ∧ d.get? e.displayIndex = some e.displayChar) ∧
    ((block ++ rest).Pairwise fun a b => a.inputIndex < b.inputIndex) ∧
    ((block ++ rest).Pairwise fun a b => a.displayIndex ≤ b.displayIndex) ∧
    (∀ a ∈ block ++ rest, ∀ b ∈ block ++ rest, a.displayIndex = b.displayIndex →
      a.kanjiWord = b.kanjiWord ∧ a.isKanji = b.isKanji) := by
  refine ⟨?_, ?_, ?_, ?_⟩
  · intro e he
    rcases List.mem_append.mp he with he | he
    · obtain ⟨h1, h2, h3, h4, h5⟩ := hbm e he
      exact ⟨h1, h3, by omega, h5⟩
    · obtain ⟨h1, h2, h3, h4⟩ := hrm e he
      exact ⟨by omega, by omega, h3, h4⟩
  · rw [List.pairwise_append]
    refine ⟨hbpi, hrpi, ?_⟩
    intro a ha b hb
    obtain ⟨-, -, -, h4, -⟩ := hbm a ha
    obtain ⟨-, h2, -, -⟩ := hrm b hb
    omega
  · rw [List.pairwise_append]
    refine ⟨hbpd, hrpd, ?_⟩
    intro a ha b hb
    obtain ⟨-, h2, -, -, -⟩ := hbm a ha
    obtain ⟨h1, -, -, -⟩ := hrm b hb
    omega
  · intro a ha b hb hdp
    rcases List.mem_append.mp ha with ha | ha <;>
      rcases List.mem_append.mp hb with hb | hb
    · exact hbs a ha b hb hdp
    · obtain ⟨-, h2, -, -, -⟩ := hbm a ha
      obtain ⟨h1, -, -, -⟩ := hrm b hb
      omega
    · obtain ⟨-, h2, -, -, -⟩ := hbm b hb
      obtain ⟨h1, -, -, -⟩ := hrm a ha
      omega
    · exact hrs a ha b hb hdp

/-- The structural invariants of the mappings produced by the alignment
loop: entries lie within the processed display and input ranges, carry the
display character found at their display index, have strictly increasing
`inputIndex` and non-decreasing `displayIndex`, and two entries at the same
display position always carry the same `kanjiWord` and `isKanji` flag. -/
theorem createMappingsGo_entries (env : Env) (d itext : List Char) :
    ∀ (fuel dIdx iIdx : Nat),
      (∀ e ∈ (createMappingsGo env d itext fuel dIdx iIdx).mappings,
        dIdx ≤ e.displayIndex ∧ iIdx ≤ e.inputIndex ∧
        e.inputIndex < (createMappingsGo env d itext fuel dIdx iIdx).inputIndex ∧
        d.get? e.displayIndex = some e.displayChar) ∧
      ((createMappingsGo env d itext fuel dIdx iIdx).mappings.Pairwise
        fun a b => a.inputIndex < b.inputIndex) ∧
      ((createMappingsGo env d itext fuel dIdx iIdx).mappings.Pairwise
        fun a b => a.displayIndex ≤ b.displayIndex) ∧
      (∀ a ∈ (createMappingsGo env d itext fuel dIdx iIdx).mappings,
        ∀ b ∈ (createMappingsGo env d itext fuel dIdx iIdx).mappings,
        a.displayIndex = b.displayIndex →
        a.kanjiWord = b.kanjiWord ∧ a.isKanji = b.isKanji) := by
  intro fuel
  induction fuel with
  | zero =>
    intro dIdx iIdx
    refine ⟨?_, ?_, ?_, ?_⟩ <;> simp [createMappingsGo]
  | succ fuel ih =>
    intro dIdx iIdx
    by_cases hg : dIdx < d.length ∧ iIdx < itext.length
    · rcases hfind : findCompoundAux env d itext dIdx iIdx (min 10 (d.length - dIdx)) with
        _ | ⟨wl, w, r⟩
      · obtain ⟨ch, hch⟩ : ∃ ch, d.get? dIdx = some ch := by
          rw [List.get?_eq_get hg.1]
          exact ⟨_, rfl⟩
        by_cases hik : env.isKanji ch = true ∧ env.hasKanaReading ch = true
        · rcases hr : env.getKanaReading [ch] with _ | rr
          · rw [createMappingsGo_kanji_fallback hg hfind hch hik.1 hik.2 (Or.inl hr)]
            dsimp only
            have hcur := createMappingsGo_cursor env d itext fuel (dIdx + 1) (iIdx + 1)
            obtain ⟨hm, hpi, hpd, hs⟩ := ih (dIdx + 1) (iIdx + 1)
            have := entries_inv_append d
              [oneToOneEntry itext dIdx iIdx ch true]
              (createMappingsGo env d itext fuel (dIdx + 1) (iIdx + 1)).mappings
              dIdx (dIdx + 1) iIdx (iIdx + 1)
              (createMappingsGo env d itext fuel (dIdx + 1) (iIdx + 1)).inputIndex
              ?_ ?_ (by omega) (by omega) (by omega) ?_ hpi ?_ hpd ?_ hs
            · exact this
            · intro e he
              rcases List.mem_singleton.mp he with rfl
              exact ⟨Nat.le_refl _, Nat.lt_succ_self _, Nat.le_refl _, Nat.lt_succ_self _, hch⟩
            · intro e he
              obtain ⟨h1, h2, h3, h4⟩ := hm e he
              exact ⟨h1, h2, h3, h4⟩
            · simp
            · simp
            · intro a ha b hb _
              rcases List.mem_singleton.mp ha with rfl
              rcases List.mem_singleton.mp hb with rfl
              exact ⟨rfl, rfl⟩
          · cases rr with
            | nil =>
              rw [createMappingsGo_kanji_fallback hg hfind hch hik.1 hik.2 (Or.inr hr)]
              dsimp only
              have hcur := createMappingsGo_cursor env d itext fuel (dIdx + 1) (iIdx + 1)
              obtain ⟨hm, hpi, hpd, hs⟩ := ih (dIdx + 1) (iIdx + 1)
              have := entries_inv_append d
                [oneToOneEntry itext dIdx iIdx ch true]
                (createMappingsGo env d itext fuel (dIdx + 1) (iIdx + 1)).mappings
                dIdx (dIdx + 1) iIdx (iIdx + 1)
                (createMappingsGo env d itext fuel (dIdx + 1) (iIdx + 1)).inputIndex
                ?_ ?_ (by omega) (by omega) (by omega) ?_ hpi ?_ hpd ?_ hs
              · exact this
              · intro e he
                rcases List.mem_singleton.mp he with rfl
                exact ⟨Nat.le_refl _, Nat.lt_succ_self _, Nat.le_refl _, Nat.lt_succ_self _, hch⟩
              · intro e he
                obtain ⟨h1, h2, h3, h4⟩ := hm e he
                exact ⟨h1, h2, h3, h4⟩
              · simp
              · simp
              · intro a ha b hb _
                rcases List.mem_singleton.mp ha with rfl
                rcases List.mem_singleton.mp hb with rfl
                exact ⟨rfl, rfl⟩
            | cons r0 rs =>
              rw [createMappingsGo_kanji hg hfind hch hik.1 hik.2 hr]
              dsimp only
              have hcur := createMappingsGo_cursor env d itext fuel (dIdx + 1)
                (iIdx + (r0 :: rs).length)
              obtain ⟨hm, hpi, hpd, hs⟩ := ih (dIdx + 1) (iIdx + (r0 :: rs).length)
              have := entries_inv_append d
                (kanjiKanaEntries itext dIdx ch [ch] iIdx (r0 :: rs).length)
                (createMappingsGo env d itext fuel (dIdx + 1)
                  (iIdx + (r0 :: rs).length)).mappings
                dIdx (dIdx + 1) iIdx
                (iIdx + (r0 :: rs).length)
                (createMappingsGo env d itext fuel (dIdx + 1)
                  (iIdx + (r0 :: rs).length)).inputIndex
                ?_ ?_ (by omega) (by omega) (by omega) ?_ hpi ?_ hpd ?_ hs
              · exact this
              · intro e he
                obtain ⟨k, hk1, hk2, hk3, rfl⟩ := kanjiKanaEntries_mem he
                exact ⟨Nat.le_refl _, Nat.lt_succ_self _, hk1, hk2, hch⟩
              · intro e he
                obtain ⟨h1, h2, h3, h4⟩ := hm e he
                exact ⟨h1, h2, h3, h4⟩
              · exact kanjiKanaEntries_pairwise _ _ _ _ _ _
              · refine List.pairwise_of_forall_mem_list ?_
                intro a ha b hb
                obtain ⟨k1, _, _, _, rfl⟩ := kanjiKanaEntries_mem ha
                obtain ⟨k2, _, _, _, rfl⟩ := kanjiKanaEntries_mem hb
                simp [kanjiKanaEntry]
              · intro a ha b hb _
                obtain ⟨k1, _, _, _, rfl⟩ := kanjiKanaEntries_mem ha
                obtain ⟨k2, _, _, _, rfl⟩ := kanjiKanaEntries_mem hb
                exact ⟨rfl, rfl⟩
        · rw [createMappingsGo_plain hg hfind hch hik]
          dsimp only
          have hcur := createMappingsGo_cursor env d itext fuel (dIdx + 1) (iIdx + 1)
          obtain ⟨hm, hpi, hpd, hs⟩ := ih (dIdx + 1) (iIdx + 1)
          have := entries_inv_append d
            [oneToOneEntry itext dIdx iIdx ch false]
            (createMappingsGo env d itext fuel (dIdx + 1) (iIdx + 1)).mappings
            dIdx (dIdx + 1) iIdx (iIdx + 1)
            (createMappingsGo env d itext fuel (dIdx + 1) (iIdx + 1)).inputIndex
            ?_ ?_ (by omega) (by omega) (by omega) ?_ hpi ?_ hpd ?_ hs
          · exact this
          · intro e he
            rcases List.mem_singleton.mp he with rfl
            exact ⟨Nat.le_refl _, Nat.lt_succ_self _, Nat.le_refl _, Nat.lt_succ_self _, hch⟩
          · intro e he
            obtain ⟨h1, h2, h3, h4⟩ := hm e he
            exact ⟨h1, h2, h3, h4⟩
          · simp
          · simp
          · intro a ha b hb _
            rcases List.mem_singleton.mp ha with rfl
            rcases List.mem_singleton.mp hb with rfl
            exact ⟨rfl, rfl⟩
      · rw [createMappingsGo_compound hg hfind]
        dsimp only
        obtain ⟨hwl2, hwle, hwlen, hw⟩ := findCompound_word_facts hfind
        have hecur := emitCompound_cursor env itext r w iIdx w dIdx iIdx
        have hcur := createMappingsGo_cursor env d itext fuel (dIdx + wl)
          (emitCompound env itext r w iIdx w dIdx iIdx).2
        obtain ⟨hm, hpi, hpd, hs⟩ := ih (dIdx + wl)
          (emitCompound env itext r w iIdx w dIdx iIdx).2
        have hem := emitCompound_mem env d itext r w iIdx w dIdx iIdx hw
        have := entries_inv_append d
          (emitCompound env itext r w iIdx w dIdx iIdx).1
          (createMappingsGo env d itext fuel (dIdx + wl)
            (emitCompound env itext r w iIdx w dIdx iIdx).2).mappings
          dIdx (dIdx + wl) iIdx
          (emitCompound env itext r w iIdx w dIdx iIdx).2
          (createMappingsGo env d itext fuel (dIdx + wl)
            (emitCompound env itext r w iIdx w dIdx iIdx).2).inputIndex
          ?_ ?_ (by omega) (by omega) (by omega) ?_ hpi ?_ hpd ?_ hs
        · exact this
        · intro e he
          obtain ⟨h1, h2, h3, h4, h5, h6, h7⟩ := hem e he
          rw [hwlen] at h2
          exact ⟨h1, h2, h3, h4, h6⟩
        · intro e he
          obtain ⟨h1, h2, h3, h4⟩ := hm e he
          exact ⟨h1, h2, h3, h4⟩
        · exact emitCompound_pairwise_input env d itext r w iIdx w dIdx iIdx hw
        · exact emitCompound_pairwise_display env d itext r w iIdx w dIdx iIdx hw
        · intro a ha b hb hdp
          obtain ⟨-, -, -, -, ha5, ha6, -⟩ := hem a ha
          obtain ⟨-, -, -, -, hb5, hb6, -⟩ := hem b hb
          refine ⟨ha5.trans hb5.symm, ?_⟩
          by_contra hne
          rcases Bool.eq_false_or_eq_true a.isKanji with hak | hak <;>
            rcases Bool.eq_false_or_eq_true b.isKanji with hbk | hbk
          · exact hne (hak.trans hbk.symm)
          · exact absurd (emitCompound_same_dp_same_kanji env d itext r w iIdx w dIdx iIdx
              hw a ha b hb hdp) (by rw [hak, hbk]; simp)
          · exact absurd (emitCompound_same_dp_same_kanji env d itext r w iIdx w dIdx iIdx
              hw a ha b hb hdp) (by rw [hak, hbk]; simp)
          · exact hne (hak.trans hbk.symm)
    · rw [createMappingsGo_stop hg]
      refine ⟨?_, ?_, ?_, ?_⟩ <;> simp

/-- Gluing of two adjacent consecutive ranges. -/
theorem range'_glue {s m t n : Nat} (h : t = s + m) :
    List.range' s m ++ List.range' t n = List.range' s (n + m) := by
  subst h
  have := List.range'_append s m n 1
  simp only [Nat.one_mul] at this
  exact this

/-- Under the no-truncation condition — the loop's final input cursor does
not exceed the input text length — the emitted `inputIndex` values are
exactly the consecutive range from the starting to the final input cursor,
and every display position between the starting and final display cursor
receives at least one entry. -/
theorem createMappingsGo_exact (env : Env) (d itext : List Char) :
    ∀ (fuel dIdx iIdx : Nat),
      (createMappingsGo env d itext fuel dIdx iIdx).inputIndex ≤ itext.length →
      ((createMappingsGo env d itext fuel dIdx iIdx).mappings.map (fun e => e.inputIndex) =
        List.range' iIdx ((createMappingsGo env d itext fuel dIdx iIdx).inputIndex - iIdx)) ∧
      (∀ k, dIdx ≤ k → k < (createMappingsGo env d itext fuel dIdx iIdx).displayIndex →
        ∃ e ∈ (createMappingsGo env d itext fuel dIdx iIdx).mappings, e.displayIndex = k) := by
  intro fuel
  induction fuel with
  | zero =>
    intro dIdx iIdx _
    constructor
    · simp [createMappingsGo]
    · intro k hk1 hk2
      simp only [createMappingsGo] at hk2
      omega
  | succ fuel ih =>
    intro dIdx iIdx h
    by_cases hg : dIdx < d.length ∧ iIdx < itext.length
    · rcases hfind : findCompoundAux env d itext dIdx iIdx (min 10 (d.length - dIdx)) with
        _ | ⟨wl, w, r⟩
      · obtain ⟨ch, hch⟩ : ∃ ch, d.get? dIdx = some ch := by
          rw [List.get?_eq_get hg.1]
          exact ⟨_, rfl⟩
        by_cases hik : env.isKanji ch = true ∧ env.hasKanaReading ch = true
        · rcases hr : env.getKanaReading [ch] with _ | rr
          · rw [createMappingsGo_kanji_fallback hg hfind hch hik.1 hik.2 (Or.inl hr)] at h ⊢
            dsimp only at h ⊢
            have hcur := createMappingsGo_cursor env d itext fuel (dIdx + 1) (iIdx + 1)
            obtain ⟨ihm, ihc⟩ := ih (dIdx + 1) (iIdx + 1) h
            constructor
            · rw [List.map_cons, ihm]
              show iIdx :: _ = _
              rw [show (createMappingsGo env d itext fuel (dIdx + 1) (iIdx + 1)).inputIndex -
                  iIdx = ((createMappingsGo env d itext fuel (dIdx + 1)
                    (iIdx + 1)).inputIndex - (iIdx + 1)) + 1 by omega,
                List.range'_succ]
            · intro k hk1 hk2
              by_cases hkd : k = dIdx
              · subst hkd
                exact ⟨_, List.mem_cons_self _ _, rfl⟩
              · obtain ⟨e, he, hede⟩ := ihc k (by omega) hk2
                exact ⟨e, List.mem_cons_of_mem _ he, hede⟩
          · cases rr with
            | nil =>
              rw [createMappingsGo_kanji_fallback hg hfind hch hik.1 hik.2 (Or.inr hr)] at h ⊢
              dsimp only at h ⊢
              have hcur := createMappingsGo_cursor env d itext fuel (dIdx + 1) (iIdx + 1)
              obtain ⟨ihm, ihc⟩ := ih (dIdx + 1) (iIdx + 1) h
              constructor
              · rw [List.map_cons, ihm]
                show iIdx :: _ = _
                rw [show (createMappingsGo env d itext fuel (dIdx + 1) (iIdx + 1)).inputIndex -
                    iIdx = ((createMappingsGo env d itext fuel (dIdx + 1)
                      (iIdx + 1)).inputIndex - (iIdx + 1)) + 1 by omega,
                  List.range'_succ]
              · intro k hk1 hk2
                by_cases hkd : k = dIdx
                · subst hkd
                  exact ⟨_, List.mem_cons_self _ _, rfl⟩
                · obtain ⟨e, he, hede⟩ := ihc k (by omega) hk2
                  exact ⟨e, List.mem_cons_of_mem _ he, hede⟩
            | cons r0 rs =>
              rw [createMappingsGo_kanji hg hfind hch hik.1 hik.2 hr] at h ⊢
              dsimp only at h ⊢
              have hcur := createMappingsGo_cursor env d itext fuel (dIdx + 1)
                (iIdx + (r0 :: rs).length)
              obtain ⟨ihm, ihc⟩ := ih (dIdx + 1) (iIdx + (r0 :: rs).length) h
              have hblock : iIdx + (r0 :: rs).length ≤ itext.length := by
                have := hcur.2
                omega
              constructor
              · rw [List.map_append, ihm, kanjiKanaEntries_map_inputIndex hblock,
                  range'_glue rfl]
                congr 1
                omega
              · intro k hk1 hk2
                by_cases hkd : k = dIdx
                · subst hkd
                  obtain ⟨e, he, hede⟩ := kanjiKanaEntries_cover
                    itext k ch [ch] iIdx (r0 :: rs).length (by simp) hg.2
                  exact ⟨e, List.mem_append_left _ he, hede⟩
                · obtain ⟨e, he, hede⟩ := ihc k (by omega) hk2
                  exact ⟨e, List.mem_append_right _ he, hede⟩
        · rw [createMappingsGo_plain hg hfind hch hik] at h ⊢
          dsimp only at h ⊢
          have hcur := createMappingsGo_cursor env d itext fuel (dIdx + 1) (iIdx + 1)
          obtain ⟨ihm, ihc⟩ := ih (dIdx + 1) (iIdx + 1) h
          constructor
          · rw [List.map_cons, ihm]
            show iIdx :: _ = _
            rw [show (createMappingsGo env d itext fuel (dIdx + 1) (iIdx + 1)).inputIndex -
                iIdx = ((createMappingsGo env d itext fuel (dIdx + 1)
                  (iIdx + 1)).inputIndex - (iIdx + 1)) + 1 by omega,
              List.range'_succ]
          · intro k hk1 hk2
            by_cases hkd : k = dIdx
            · subst hkd
              exact ⟨_, List.mem_cons_self _ _, rfl⟩
            · obtain ⟨e, he, hede⟩ := ihc k (by omega) hk2
              exact ⟨e, List.mem_cons_of_mem _ he, hede⟩
      · rw [createMappingsGo_compound hg hfind] at h ⊢
        dsimp only at h ⊢
        obtain ⟨hwl2, hwle, hwlen, hw⟩ := findCompound_word_facts hfind
        have hecur := emitCompound_cursor env itext r w iIdx w dIdx iIdx
        have hcur := createMappingsGo_cursor env d itext fuel (dIdx + wl)
          (emitCompound env itext r w iIdx w dIdx iIdx).2
        obtain ⟨ihm, ihc⟩ := ih (dIdx + wl) (emitCompound env itext r w iIdx w dIdx iIdx).2 h
        have hblock : (emitCompound env itext r w iIdx w dIdx iIdx).2 ≤ itext.length := by
          have := hcur.2
          omega
        constructor
        · rw [List.map_append, ihm, emitCompound_map_inputIndex env itext r w iIdx w dIdx
            iIdx hblock, range'_glue (by omega)]
          congr 1
          omega
        · intro k hk1 hk2
          by_cases hkd : k < dIdx + wl
          · obtain ⟨e, he, hede⟩ := emitCompound_cover env itext r w iIdx w dIdx iIdx hblock
              (k - dIdx) (by omega)
            refine ⟨e, List.mem_append_left _ he, ?_⟩
            omega
          · obtain ⟨e, he, hede⟩ := ihc k (by omega) hk2
            exact ⟨e, List.mem_append_right _ he, hede⟩
    · rw [createMappingsGo_stop hg] at h ⊢
      refine ⟨by simp, ?_⟩
      intro k hk1 hk2
      dsimp only at hk2
      omega

/-- Step equation of `splitTextForDisplay` when no entry owns the cursor
(input finished). -/
theorem splitTextForDisplay_finished {m : TextMapping} {p : Nat}
    (hfind : (m.mappings.find? fun e => e.inputIndex == p) = none) :
    splitTextForDisplay m p = ⟨m.displayText, [], []⟩ := by
  rw [splitTextForDisplay, hfind]

/-- Step equation of `splitTextForDisplay` at a kanji entry whose reading
is still being entered. -/
theorem splitTextForDisplay_kanji_active {m : TextMapping} {p : Nat}
    {e : CharacterMapping}
    (hfind : (m.mappings.find? fun x => x.inputIndex == p) = some e)
    (hk : e.isKanji = true)
    (hact : ((m.mappings.filter fun x =>
        x.displayIndex == e.displayIndex && x.isKanji).any fun x =>
        decide (p ≤ x.inputIndex)) = true) :
    splitTextForDisplay m p =
      ⟨m.displayText.take e.displayIndex, [e.displayChar],
       m.displayText.drop (e.displayIndex + 1)⟩ := by
  rw [splitTextForDisplay, hfind]
  simp only [hk, hact, if_true]

/-- Step equation of `splitTextForDisplay` at a kanji entry whose reading
has been fully consumed. -/
theorem splitTextForDisplay_kanji_done {m : TextMapping} {p : Nat}
    {e : CharacterMapping}
    (hfind : (m.mappings.find? fun x => x.inputIndex == p) = some e)
    (hk : e.isKanji = true)
    (hact : ((m.mappings.filter fun x =>
        x.displayIndex == e.displayIndex && x.isKanji).any fun x =>
        decide (p ≤ x.inputIndex)) = false) :
    splitTextForDisplay m p =
      ⟨m.displayText.take (e.displayIndex + 1), [],
       m.displayText.drop (e.displayIndex + 1)⟩ := by
  rw [splitTextForDisplay, hfind]
  simp only [hk, hact, if_true, Bool.false_eq_true, if_false]

/-- Step equation of `splitTextForDisplay` at a non-kanji entry. -/
theorem splitTextForDisplay_nonkanji {m : TextMapping} {p : Nat}
    {e : CharacterMapping}
    (hfind : (m.mappings.find? fun x => x.inputIndex == p) = some e)
    (hk : e.isKanji = false) :
    splitTextForDisplay m p =
      ⟨m.displayText.take e.displayIndex, [e.displayChar],
       m.displayText.drop (e.displayIndex + 1)⟩ := by
  rw [splitTextForDisplay, hfind]
  simp only [hk, Bool.false_eq_true, if_false]

/-- At a kanji entry owning the cursor, the "still inputting" test is
always true: the owning entry itself belongs to its kanji's entry group and
has `inputIndex = p ≥ p`. -/
theorem splitTextForDisplay_owned_kanji_is_active {m : TextMapping} {p : Nat}
    {e : CharacterMapping}
    (hfind : (m.mappings.find? fun x => x.inputIndex == p) = some e)
    (hk : e.isKanji = true) :
    ((m.mappings.filter fun x =>
        x.displayIndex == e.displayIndex && x.isKanji).any fun x =>
        decide (p ≤ x.inputIndex)) = true := by
  have hmem : e ∈ m.mappings := List.mem_of_find?_eq_some hfind
  have hpred := @List.find?_some CharacterMapping
    (fun x => x.inputIndex == p) e m.mappings hfind
  have hip : e.inputIndex = p := by simpa using hpred
  rw [List.any_eq_true]
  refine ⟨e, ?_, by simp [hip]⟩
  rw [List.mem_filter]
  exact ⟨hmem, by simp [hk]⟩

/-- In a list whose `inputIndex` values are strictly increasing and whose
`displayIndex` values are non-decreasing, a smaller `inputIndex` forces a
`displayIndex` that is not larger. -/
theorem displayIndex_le_of_inputIndex_lt {l : List CharacterMapping}
    (hpi : l.Pairwise fun a b => a.inputIndex < b.inputIndex)
    (hpd : l.Pairwise fun a b => a.displayIndex ≤ b.displayIndex)
    {a b : CharacterMapping} (ha : a ∈ l) (hb : b ∈ l)
    (hab : a.inputIndex < b.inputIndex) :
    a.displayIndex ≤ b.displayIndex := by
  obtain ⟨⟨i, hi⟩, rfl⟩ := List.mem_iff_get.mp ha
  obtain ⟨⟨j, hj⟩, rfl⟩ := List.mem_iff_get.mp hb
  rcases Nat.lt_trichotomy i j with h | h | h
  · have := List.pairwise_iff_get.mp hpd ⟨i, hi⟩ ⟨j, hj⟩ h
    exact this
  · subst h
    exact absurd hab (lt_irrefl _)
  · have := List.pairwise_iff_get.mp hpi ⟨j, hj⟩ ⟨i, hi⟩ h
    omega

/-- Splitting a list at an index: prefix, the element there, suffix. -/
theorem take_cons_drop_eq {α : Type} {l : List α} {n : Nat} (h : n < l.length) {c : α}
    (hg : l.get? n = some c) : l.take n ++ [c] ++ l.drop (n + 1) = l := by
  conv_rhs => rw [← List.take_append_drop n l, List.drop_eq_getElem_cons h]
  rw [List.append_assoc, List.singleton_append]
  congr 2
  rw [List.get?_eq_getElem?, List.getElem?_eq_getElem h, Option.some.injEq] at hg
  exact hg.symm

/-- `createTextMapping` publishes the loop's accumulated mappings. -/
theorem createTextMapping_mappings (env : Env) (d i : List Char) :
    (createTextMapping env d i).mappings =
      (createMappingsGo env d i d.length 0 0).mappings := rfl

/-- `createTextMapping` stores the display text unchanged. -/
theorem createTextMapping_displayText (env : Env) (d i : List Char) :
    (createTextMapping env d i).displayText = d := rfl

/-- `createTextMapping` stores the input text unchanged. -/
theorem createTextMapping_inputText (env : Env) (d i : List Char) :
    (createTextMapping env d i).inputText = i := rfl

/-- `createTextMapping` sets `totalInputLength` to the input text length. -/
theorem createTextMapping_totalInputLength (env : Env) (d i : List Char) :
    (createTextMapping env d i).totalInputLength = i.length := rfl

/-! ### Claims -/

/-- Claim C1: for every `(displayText, inputText)` pair whose reading data
is well-formed — formalised as: the alignment run consumes both strings
exactly, i.e. its final display cursor equals the display length and its
final input cursor equals the input length (which is precisely "the
concatenation of the readings used exactly equals `inputText`" with no
display text left over) — `createTextMapping` produces mappings whose
`inputIndex` values are exactly `0, 1, ..., totalInputLength - 1` in
order, with no gaps and no repeats (the map equals `List.range`), there is
exactly one entry per input character, and every display position is
consumed (receives at least one entry). -/
theorem claim_C1 (env : Env) (displayText inputText : List Char)
    (hD : (createMappingsGo env displayText inputText displayText.length 0 0).displayIndex =
      displayText.length)
    (hI : (createMappingsGo env displayText inputText displayText.length 0 0).inputIndex =
      inputText.length) :
    ((createTextMapping env displayText inputText).mappings.map (fun e => e.inputIndex) =
      List.range (createTextMapping env displayText inputText).totalInputLength) ∧
    (createTextMapping env displayText inputText).mappings.length =
      (createTextMapping env displayText inputText).totalInputLength ∧
    (∀ k, k < displayText.length →
      ∃ e ∈ (createTextMapping env displayText inputText).mappings,
        e.displayIndex = k) := by
  have hle : (createMappingsGo env displayText inputText displayText.length 0 0).inputIndex ≤
      inputText.length := by rw [hI]
  obtain ⟨hmap, hcov⟩ := createMappingsGo_exact env displayText inputText
    displayText.length 0 0 hle
  rw [createTextMapping_mappings, createTextMapping_totalInputLength]
  have hmap2 : (createMappingsGo env displayText inputText
      displayText.length 0 0).mappings.map (fun e => e.inputIndex) =
      List.range inputText.length := by
    rw [hmap, hI, Nat.sub_zero, List.range_eq_range']
  refine ⟨hmap2, ?_, ?_⟩
  · have := congrArg List.length hmap2
    simpa using this
  · intro k hk
    exact hcov k (Nat.zero_le _) (by omega)

/-- Claim C1 witness: a concrete fully-consuming run (no kanji, display
equals input). -/
theorem claim_C1_witness :
    ((createTextMapping envPlain ['あ'] ['あ']).mappings.map (fun e => e.inputIndex) =
      List.range (createTextMapping envPlain ['あ'] ['あ']).totalInputLength) ∧
    (createTextMapping envPlain ['あ'] ['あ']).mappings.length =
      (createTextMapping envPlain ['あ'] ['あ']).totalInputLength :=
  have h := claim_C1 envPlain ['あ'] ['あ'] (by decide) (by decide)
  ⟨h.1, h.2.1⟩

/-- Claim C9: in every mapping produced by `createTextMapping`, the
`displayIndex` values are monotonically non-decreasing across the mapping
sequence, and entries at the same display position — in particular all the
kana entries of one multi-kana kanji reading, which share that kanji's
display position — always carry the same `kanjiWord` (and the same
`isKanji` flag). -/
theorem claim_C9 (env : Env) (displayText inputText : List Char) :
    ((createTextMapping env displayText inputText).mappings.Pairwise
      fun a b => a.displayIndex ≤ b.displayIndex) ∧
    (∀ a ∈ (createTextMapping env displayText inputText).mappings,
      ∀ b ∈ (createTextMapping env displayText inputText).mappings,
      a.displayIndex = b.displayIndex →
      a.kanjiWord = b.kanjiWord ∧ a.isKanji = b.isKanji) := by
  obtain ⟨-, -, hpd, hs⟩ := createMappingsGo_entries env displayText inputText
    displayText.length 0 0
  rw [createTextMapping_mappings]
  exact ⟨hpd, hs⟩

/-- Claim C5: the three strings returned by `splitTextForDisplay` always
partition the display text — their concatenation reconstructs it and their
lengths sum to its length — and when input is finished (no mapping entry
owns the cursor) the completed part is the whole display text and the
other two parts are empty. -/
theorem claim_C5 (env : Env) (displayText inputText : List Char) (inputPosition : Nat) :
    (splitTextForDisplay (createTextMapping env displayText inputText)
        inputPosition).completedPart ++
      (splitTextForDisplay (createTextMapping env displayText inputText)
        inputPosition).currentChar ++
      (splitTextForDisplay (createTextMapping env displayText inputText)
        inputPosition).remainingPart = displayText ∧
    (splitTextForDisplay (createTextMapping env displayText inputText)
        inputPosition).completedPart.length +
      (splitTextForDisplay (createTextMapping env displayText inputText)
        inputPosition).currentChar.length +
      (splitTextForDisplay (createTextMapping env displayText inputText)
        inputPosition).remainingPart.length = displayText.length ∧
    (((createTextMapping env displayText inputText).mappings.find?
        fun e => e.inputIndex == inputPosition) = none →
      splitTextForDisplay (createTextMapping env displayText inputText) inputPosition =
        ⟨displayText, [], []⟩) := by
  set m := createTextMapping env displayText inputText with hm
  have hconcat : (splitTextForDisplay m inputPosition).completedPart ++
      (splitTextForDisplay m inputPosition).currentChar ++
      (splitTextForDisplay m inputPosition).remainingPart = displayText := by
    rcases hfind : m.mappings.find? fun e => e.inputIndex == inputPosition with _ | e
    · rw [splitTextForDisplay_finished hfind]
      simp [hm, createTextMapping_displayText]
    · have hmem : e ∈ m.mappings := List.mem_of_find?_eq_some hfind
      rw [hm, createTextMapping_mappings] at hmem
      obtain ⟨-, -, -, hget⟩ :=
        (createMappingsGo_entries env displayText inputText
          displayText.length 0 0).1 e hmem
      have hlt : e.displayIndex < displayText.length := by
        by_contra hge
        rw [List.get?_eq_none.mpr (Nat.le_of_not_lt hge)] at hget
        cases hget
      have hsplit : displayText.take e.displayIndex ++ [e.displayChar] ++
          displayText.drop (e.displayIndex + 1) = displayText :=
        take_cons_drop_eq hlt hget
      by_cases hk : e.isKanji = true
      · by_cases hact : ((m.mappings.filter fun x =>
            x.displayIndex == e.displayIndex && x.isKanji).any fun x =>
            decide (inputPosition ≤ x.inputIndex)) = true
        · rw [splitTextForDisplay_kanji_active hfind hk hact]
          have hd : m.displayText = displayText := by
            rw [hm, createTextMapping_displayText]
          rw [hd]
          exact hsplit
        · rw [splitTextForDisplay_kanji_done hfind hk
            (Bool.eq_false_iff.mpr hact)]
          have hd : m.displayText = displayText := by
            rw [hm, createTextMapping_displayText]
          rw [hd]
          simp [List.take_append_drop]
      · rw [splitTextForDisplay_nonkanji hfind (Bool.eq_false_iff.mpr hk)]
        have hd : m.displayText = displayText := by
          rw [hm, createTextMapping_displayText]
        rw [hd]
        exact hsplit
  refine ⟨hconcat, ?_, ?_⟩
  · have := congrArg List.length hconcat
    simpa [Nat.add_assoc] using this
  · intro hfind
    rw [splitTextForDisplay_finished hfind, hm, createTextMapping_displayText]

/-- Claim C5 witness: the partition at a concrete mapping and cursor. -/
theorem claim_C5_witness :
    (splitTextForDisplay (createTextMapping envGaku ['学', 'あ'] ['が', 'く', 'あ'])
        0).completedPart ++
      (splitTextForDisplay (createTextMapping envGaku ['学', 'あ'] ['が', 'く', 'あ'])
        0).currentChar ++
      (splitTextForDisplay (createTextMapping envGaku ['学', 'あ'] ['が', 'く', 'あ'])
        0).remainingPart = ['学', 'あ'] ∧
    (splitTextForDisplay (createTextMapping envGaku ['学', 'あ'] ['が', 'く', 'あ'])
        0).completedPart.length +
      (splitTextForDisplay (createTextMapping envGaku ['学', 'あ'] ['が', 'く', 'あ'])
        0).currentChar.length +
      (splitTextForDisplay (createTextMapping envGaku ['学', 'あ'] ['が', 'く', 'あ'])
        0).remainingPart.length = (['学', 'あ'] : List Char).length :=
  have h := claim_C5 envGaku ['学', 'あ'] ['が', 'く', 'あ'] 0
  ⟨h.1, h.2.1⟩

/-- The concrete display and input text of the 学/がく examples. -/
def dGaku : List Char := ['学', 'あ']

/-- Input text がくあ for display 学あ. -/
def iGaku : List Char := ['が', 'く', 'あ']

/-- The first mapping entry of the 学あ/がくあ alignment (kana が of 学). -/
def eGaku0 : CharacterMapping := kanjiKanaEntry iGaku 0 '学' ['学'] 0

/-- The third mapping entry of the 学あ/がくあ alignment (kana あ, 1:1). -/
def eGakuA : CharacterMapping := oneToOneEntry iGaku 1 2 'あ' false

/-- Claim C6 (amended): (a) while the entry owning `inputPosition` is
kanji — in which case some entry sharing its `displayIndex` necessarily has
`inputIndex ≥ inputPosition`, namely the owning entry itself —
`splitTextForDisplay` reports the kanji character as `currentChar` and
excludes it from `completedPart`; (b) once every entry sharing a kanji's
`displayIndex` has `inputIndex < inputPosition` (its reading fully
consumed) while some entry still owns `inputPosition`, the kanji's display
position lies strictly inside `completedPart` — the kanji is wholly
completed, never split between completed and remaining.  (The original
claim's "currentChar is empty" is corrected: `currentChar` then holds the
later position's character; see `claim_C6_counterexample`.) -/
theorem claim_C6 (env : Env) (displayText inputText : List Char) (p : Nat) :
    (∀ e, ((createTextMapping env displayText inputText).mappings.find?
        fun x => x.inputIndex == p) = some e → e.isKanji = true →
      splitTextForDisplay (createTextMapping env displayText inputText) p =
        ⟨displayText.take e.displayIndex, [e.displayChar],
         displayText.drop (e.displayIndex + 1)⟩) ∧
    (∀ x ∈ (createTextMapping env displayText inputText).mappings, x.isKanji = true →
      (∀ y ∈ (createTextMapping env displayText inputText).mappings,
        y.displayIndex = x.displayIndex → y.inputIndex < p) →
      ∀ e', ((createTextMapping env displayText inputText).mappings.find?
          fun z => z.inputIndex == p) = some e' →
        x.displayIndex < e'.displayIndex ∧
        ∃ k, (splitTextForDisplay (createTextMapping env displayText inputText)
            p).completedPart = displayText.take k ∧ x.displayIndex < k ∧
          (splitTextForDisplay (createTextMapping env displayText inputText)
            p).completedPart.get? x.displayIndex = some x.displayChar) := by
  obtain ⟨hbnd, hpi, hpd, hsame⟩ := createMappingsGo_entries env displayText inputText
    displayText.length 0 0
  constructor
  · intro e hfind hk
    rw [splitTextForDisplay_kanji_active hfind hk
      (splitTextForDisplay_owned_kanji_is_active hfind hk), createTextMapping_displayText]
  · intro x hx hxk hall e' hfind'
    have hmem' : e' ∈ (createTextMapping env displayText inputText).mappings :=
      List.mem_of_find?_eq_some hfind'
    have hip' : e'.inputIndex = p := by
      have := @List.find?_some CharacterMapping (fun z => z.inputIndex == p) e' _ hfind'
      simpa using this
    have hxlt : x.inputIndex < p := hall x hx rfl
    rw [createTextMapping_mappings] at hx hmem'
    have hle : x.displayIndex ≤ e'.displayIndex :=
      displayIndex_le_of_inputIndex_lt hpi hpd hx hmem' (by omega)
    have hne : x.displayIndex ≠ e'.displayIndex := by
      intro heq
      have := hall e' (by rw [createTextMapping_mappings]; exact hmem') heq.symm
      omega
    have hlt2 : x.displayIndex < e'.displayIndex := Nat.lt_of_le_of_ne hle hne
    obtain ⟨-, -, -, hgetx⟩ := hbnd x hx
    refine ⟨hlt2, ?_⟩
    by_cases hek : e'.isKanji = true
    · rw [splitTextForDisplay_kanji_active hfind' hek
        (splitTextForDisplay_owned_kanji_is_active hfind' hek),
        createTextMapping_displayText]
      exact ⟨e'.displayIndex, rfl, hlt2, by rw [List.get?_take hlt2, hgetx]⟩
    · rw [splitTextForDisplay_nonkanji hfind' (Bool.eq_false_iff.mpr hek),
        createTextMapping_displayText]
      exact ⟨e'.displayIndex, rfl, hlt2, by rw [List.get?_take hlt2, hgetx]⟩

/-- Claim C6 witness: for 学あ/がくあ, at cursor 0 the kanji 学 is the
highlighted `currentChar`; at cursor 2 (both kana of 学 consumed, あ owns
the cursor) the kanji lies wholly inside `completedPart`. -/
theorem claim_C6_witness :
    (splitTextForDisplay (createTextMapping envGaku dGaku iGaku) 0 =
      ⟨dGaku.take eGaku0.displayIndex, [eGaku0.displayChar],
       dGaku.drop (eGaku0.displayIndex + 1)⟩) ∧
    eGaku0.displayIndex < eGakuA.displayIndex :=
  ⟨(claim_C6 envGaku dGaku iGaku 0).1 eGaku0 (by decide) (by decide),
   ((claim_C6 envGaku dGaku iGaku 2).2 eGaku0 (by decide) (by decide) (by decide)
     eGakuA (by decide)).1⟩

/-- Claim C6 counterexample, refuting the original second half ("once
every entry of that kanji's reading has `inputIndex < inputPosition` ...
`currentChar` is empty"): for 学あ/がくあ at cursor 2, every entry of the
kanji 学 (display position 0) has `inputIndex < 2` and the kanji sits in
`completedPart`, yet `currentChar` is あ, not empty. -/
theorem claim_C6_counterexample :
    (∀ e ∈ (createTextMapping envGaku dGaku iGaku).mappings,
      e.displayIndex = 0 → e.inputIndex < 2) ∧
    (∃ e ∈ (createTextMapping envGaku dGaku iGaku).mappings,
      e.displayIndex = 0 ∧ e.isKanji = true) ∧
    (splitTextForDisplay (createTextMapping envGaku dGaku iGaku) 2).completedPart =
      ['学'] ∧
    (splitTextForDisplay (createTextMapping envGaku dGaku iGaku) 2).currentChar =
      ['あ'] ∧
    ¬(splitTextForDisplay (createTextMapping envGaku dGaku iGaku) 2).currentChar = [] := by
  decide

/-- Step equation of `validateInputAtPosition` when the cursor is at or
past the end of the mappings array. -/
theorem validateInputAtPosition_oob {env : Env} {m : TextMapping} {u : List Char}
    {p : Nat} (h : m.mappings.get? p = none) :
    validateInputAtPosition env m u p = ⟨false, false, false, []⟩ := by
  rw [validateInputAtPosition, h]

/-- Step equation of `validateInputAtPosition` at an in-range cursor,
spelling out the combination formulas of lines 347-400. -/
theorem validateInputAtPosition_some {env : Env} {m : TextMapping} {u : List Char}
    {p : Nat} {tm : CharacterMapping} (h : m.mappings.get? p = some tm) :
    validateInputAtPosition env m u p =
      ⟨decide (some u ∈ basicPossibleChars env m tm p) ||
          (env.validateJapaneseInput u (jsStr tm.inputChar)).isValid,
        decide (some u = jsStr tm.inputChar) ||
          ((env.validateJapaneseInput u (jsStr tm.inputChar)).isComplete &&
            (env.validateJapaneseInput u (jsStr tm.inputChar)).isValid),
        (decide (some u ∈ basicPossibleChars env m tm p) &&
          !(decide (some u = jsStr tm.inputChar) ||
            ((env.validateJapaneseInput u (jsStr tm.inputChar)).isComplete &&
              (env.validateJapaneseInput u (jsStr tm.inputChar)).isValid))) ||
          ((env.validateJapaneseInput u (jsStr tm.inputChar)).isValid &&
            (env.validateJapaneseInput u (jsStr tm.inputChar)).canContinue),
        dedupFirst (basicPossibleChars env m tm p ++
          sequentialExtraChars (env.validateJapaneseInput u (jsStr tm.inputChar)))⟩ := by
  rw [validateInputAtPosition, h]

/-- Claim C2: at every in-range cursor, `validateInputAtPosition` combines
the basic match (membership of `userInput` in the de-duplicated basic
`possibleChars` set) with the sequential validator's result for
`(userInput, target)` exactly as described: `isValid` is their
disjunction; `isComplete` is exact-target-match or (sequential complete
and valid); `canContinue` is (basic match and not complete) or (sequential
valid and can-continue). -/
theorem claim_C2 (env : Env) (m : TextMapping) (u : List Char) (p : Nat)
    (tm : CharacterMapping) (h : m.mappings.get? p = some tm) :
    (validateInputAtPosition env m u p).isValid =
      (decide (some u ∈ basicPossibleChars env m tm p) ||
        (env.validateJapaneseInput u (jsStr tm.inputChar)).isValid) ∧
    (validateInputAtPosition env m u p).isComplete =
      (decide (some u = jsStr tm.inputChar) ||
        ((env.validateJapaneseInput u (jsStr tm.inputChar)).isComplete &&
          (env.validateJapaneseInput u (jsStr tm.inputChar)).isValid)) ∧
    (validateInputAtPosition env m u p).canContinue =
      ((decide (some u ∈ basicPossibleChars env m tm p) &&
        !(validateInputAtPosition env m u p).isComplete) ||
        ((env.validateJapaneseInput u (jsStr tm.inputChar)).isValid &&
          (env.validateJapaneseInput u (jsStr tm.inputChar)).canContinue)) := by
  rw [validateInputAtPosition_some h]
  exact ⟨rfl, rfl, rfl⟩

/-- Claim C2 witness: the combination formulas at a concrete mapping,
cursor 0 and user input が. -/
theorem claim_C2_witness :
    ((validateInputAtPosition envGaku (createTextMapping envGaku dGaku iGaku)
        ['が'] 0).isValid =
      (decide (some ['が'] ∈ basicPossibleChars envGaku
          (createTextMapping envGaku dGaku iGaku) eGaku0 0) ||
        (envGaku.validateJapaneseInput ['が'] (jsStr eGaku0.inputChar)).isValid)) ∧
    ((validateInputAtPosition envGaku (createTextMapping envGaku dGaku iGaku)
        ['が'] 0).isComplete =
      (decide (some ['が'] = jsStr eGaku0.inputChar) ||
        ((envGaku.validateJapaneseInput ['が'] (jsStr eGaku0.inputChar)).isComplete &&
          (envGaku.validateJapaneseInput ['が'] (jsStr eGaku0.inputChar)).isValid))) ∧
    ((validateInputAtPosition envGaku (createTextMapping envGaku dGaku iGaku)
        ['が'] 0).canContinue =
      ((decide (some ['が'] ∈ basicPossibleChars envGaku
          (createTextMapping envGaku dGaku iGaku) eGaku0 0) &&
        !(validateInputAtPosition envGaku (createTextMapping envGaku dGaku iGaku)
          ['が'] 0).isComplete) ||
        ((envGaku.validateJapaneseInput ['が'] (jsStr eGaku0.inputChar)).isValid &&
          (envGaku.validateJapaneseInput ['が'] (jsStr eGaku0.inputChar)).canContinue))) :=
  claim_C2 envGaku (createTextMapping envGaku dGaku iGaku) ['が'] 0 eGaku0 (by decide)

/-- Claim C3 (amended): the terminal all-false result is keyed on
`inputPosition ≥ mappings.length`; therefore whenever the mapping also
satisfies `mappings.length ≤ totalInputLength` (as every well-formed
alignment does), every `inputPosition ≥ totalInputLength` is a defined
terminal state answered with `{isValid := false, isComplete := false,
canContinue := false, possibleChars := []}`, not an error. -/
theorem claim_C3 (env : Env) (m : TextMapping) (u : List Char) (p : Nat)
    (hlen : m.mappings.length ≤ m.totalInputLength) (hp : m.totalInputLength ≤ p) :
    validateInputAtPosition env m u p = ⟨false, false, false, []⟩ := by
  have hnone : m.mappings.get? p = none := List.get?_eq_none.mpr (by omega)
  exact validateInputAtPosition_oob hnone

/-- Claim C3 witness: a concrete mapping queried past its end. -/
theorem claim_C3_witness :
    validateInputAtPosition envPlain (createTextMapping envPlain ['あ'] ['あ'])
      ['x'] 1 = ⟨false, false, false, []⟩ :=
  claim_C3 envPlain (createTextMapping envPlain ['あ'] ['あ']) ['x'] 1
    (by decide) (by decide)

/-- Claim C3 counterexample, refuting the original claim: with the
adversarial reading data of `envOverrun` (compound 学あ read が, single 学
read がく), aligning 学あ against が yields `totalInputLength = 1` but two
mapping entries, and validating at position `1 ≥ totalInputLength` returns
`isValid = true` — not the all-false terminal result. -/
theorem claim_C3_counterexample :
    (createTextMapping envOverrun dGaku ['が']).totalInputLength = 1 ∧
    1 < (createTextMapping envOverrun dGaku ['が']).mappings.length ∧
    (validateInputAtPosition envOverrun (createTextMapping envOverrun dGaku ['が'])
      ['x'] 1).isValid = true := by
  decide

/-- Claim C10: `createTextMapping` sets `totalInputLength` to the length
of the input text regardless of how many entries were produced;
`mappings.length` can be strictly smaller (display text exhausted first);
and both `validateInputAtPosition` and `getTargetCharAtPosition` key their
terminal handling on `inputPosition ≥ mappings.length`, returning the
all-false result and the empty string respectively. -/
theorem claim_C10 :
    (∀ (env : Env) (d i : List Char),
      (createTextMapping env d i).totalInputLength = i.length) ∧
    (createTextMapping envPlain [] ['あ']).mappings.length <
      (createTextMapping envPlain [] ['あ']).totalInputLength ∧
    (∀ (env : Env) (m : TextMapping) (u : List Char) (p : Nat),
      m.mappings.length ≤ p →
      validateInputAtPosition env m u p = ⟨false, false, false, []⟩ ∧
      getTargetCharAtPosition m p = []) := by
  refine ⟨fun env d i => rfl, by decide, ?_⟩
  intro env m u p hp
  have hnone : m.mappings.get? p = none := List.get?_eq_none.mpr hp
  constructor
  · exact validateInputAtPosition_oob hnone
  · rw [getTargetCharAtPosition, hnone]

/-- Claim C10 witness: the terminal behaviour at a concrete mapping whose
entry list (empty) is shorter than its `totalInputLength` (1). -/
theorem claim_C10_witness :
    validateInputAtPosition envPlain (createTextMapping envPlain [] ['あ'])
      ['x'] 0 = ⟨false, false, false, []⟩ ∧
    getTargetCharAtPosition (createTextMapping envPlain [] ['あ']) 0 = [] :=
  claim_C10.2.2 envPlain (createTextMapping envPlain [] ['あ']) ['x'] 0 (by decide)

/-- Claim C7: at every in-range cursor, the `possibleChars` list returned
by `validateInputAtPosition` contains no duplicates, and its members are
exactly the union of the basic set (the target character, the per-rank
characters of alternative readings of the target's `kanjiWord`, and the
attached `readingVariations`), the sequential validator's
`nextPossibleChars` when present, and every character of the sequential
validator's transformation chain when that chain is longer than 2 steps. -/
theorem claim_C7 (env : Env) (m : TextMapping) (u : List Char) (p : Nat)
    (tm : CharacterMapping) (h : m.mappings.get? p = some tm) :
    (validateInputAtPosition env m u p).possibleChars.Nodup ∧
    ∀ x, x ∈ (validateInputAtPosition env m u p).possibleChars ↔
      (x ∈ jsStr tm.inputChar :: (altReadingChars env m tm p ++ variationChars tm) ∨
       x ∈ nextChars (env.validateJapaneseInput u (jsStr tm.inputChar)) ∨
       x ∈ transformationChainChars (env.validateJapaneseInput u (jsStr tm.inputChar))) := by
  rw [validateInputAtPosition_some h]
  constructor
  · exact nodup_dedupFirst _
  · intro x
    show x ∈ dedupFirst _ ↔ _
    rw [mem_dedupFirst, List.mem_append, basicPossibleChars, mem_dedupFirst,
      sequentialExtraChars, List.mem_append]

/-- Claim C7 witness: no duplicates and the membership characterisation at
a concrete mapping, cursor and input, checked for the target character. -/
theorem claim_C7_witness :
    (validateInputAtPosition envGaku (createTextMapping envGaku dGaku iGaku)
      ['が'] 0).possibleChars.Nodup ∧
    (some ['が'] ∈ (validateInputAtPosition envGaku
        (createTextMapping envGaku dGaku iGaku) ['が'] 0).possibleChars ↔
      (some ['が'] ∈ jsStr eGaku0.inputChar ::
          (altReadingChars envGaku (createTextMapping envGaku dGaku iGaku) eGaku0 0 ++
            variationChars eGaku0) ∨
       some ['が'] ∈ nextChars (envGaku.validateJapaneseInput ['が']
          (jsStr eGaku0.inputChar)) ∨
       some ['が'] ∈ transformationChainChars (envGaku.validateJapaneseInput ['が']
          (jsStr eGaku0.inputChar)))) :=
  ⟨(claim_C7 envGaku (createTextMapping envGaku dGaku iGaku) ['が'] 0 eGaku0
      (by decide)).1,
   (claim_C7 envGaku (createTextMapping envGaku dGaku iGaku) ['が'] 0 eGaku0
      (by decide)).2 (some ['が'])⟩

/-- The display text 大学生. -/
def dDai : List Char := ['大', '学', '生']

/-- The input text だいがくせい. -/
def iDai : List Char := ['だ', 'い', 'が', 'く', 'せ', 'い']

/-- The first mapping entry of the 大学生/だいがくせい alignment. -/
def eDai0 : CharacterMapping := kanjiKanaEntry iDai 0 '大' dDai 0

/-- The first entry after the advanced second pass attaches its reading
variations. -/
def eDai0adv : CharacterMapping :=
  { eDai0 with readingVariations := some (attachedVariations [iDai] 0) }

/-- Claim C4: compound probing is longest-first — a successful probe
started at window `wlStart` returns a window length `wl` with
`2 ≤ wl ≤ wlStart` whose candidate substring passes the acceptance test
(registered non-empty reading that prefixes the remaining input), and no
strictly longer window within the probed range passes the test; in
particular, for display 大学生 where both 大学 (length 2) and 大学生
(length 3) have registered readings matching the input prefix, every
mapping entry carries the length-3 word 大学生 as its `kanjiWord` and none
carries 大学. -/
theorem claim_C4 :
    (∀ (env : Env) (d i : List Char) (dIdx iIdx wlStart wl : Nat) (w r : List Char),
      findCompoundAux env d i dIdx iIdx wlStart = some (wl, w, r) →
      2 ≤ wl ∧ wl ≤ wlStart ∧ w = (d.drop dIdx).take wl ∧
        compoundMatchesB env d i dIdx iIdx wl = true ∧
        ∀ wl2, wl < wl2 → wl2 ≤ wlStart →
          compoundMatchesB env d i dIdx iIdx wl2 = false) ∧
    compoundMatchesB envDaigaku dDai iDai 0 0 2 = true ∧
    compoundMatchesB envDaigaku dDai iDai 0 0 3 = true ∧
    (∀ e ∈ (createTextMapping envDaigaku dDai iDai).mappings,
      e.kanjiWord = some dDai) := by
  refine ⟨?_, by decide, by decide, by decide⟩
  intro env d i dIdx iIdx wlStart wl w r hfind
  obtain ⟨h2, hle, hw, hread, hne, htake, hnone⟩ :=
    findCompoundAux_spec env d i dIdx iIdx wlStart wl w r hfind
  refine ⟨h2, hle, hw, ?_, hnone⟩
  rw [compoundMatchesB, ← hw, hread]
  show (decide (r ≠ []) && decide ((i.drop iIdx).take r.length = r)) = true
  rw [decide_eq_true hne, decide_eq_true htake]
  rfl

/-- Claim C4 witness: the probe at 大学生 with starting window 3 accepts
the full three-character compound. -/
theorem claim_C4_witness :
    2 ≤ 3 ∧ 3 ≤ 3 ∧ dDai = (dDai.drop 0).take 3 ∧
    compoundMatchesB envDaigaku dDai iDai 0 0 3 = true :=
  have h := claim_C4.1 envDaigaku dDai iDai 0 0 3 3 dDai iDai (by decide)
  ⟨h.1, h.2.1, h.2.2.1, h.2.2.2.1⟩

/-- The mappings of the advanced alignment are the base mappings run
through the variation-attachment pass starting at ordinal 0. -/
theorem createAdvancedTextMapping_mappings (env : Env) (d i : List Char) :
    (createAdvancedTextMapping env d i).mappings =
      attachVariationsGo (env.generateReadingVariations d i) 0
        (createTextMapping env d i).mappings := rfl

/-- The variation-attachment pass preserves the number of entries. -/
theorem attachVariationsGo_length (variations : List (List Char)) :
    ∀ (l : List CharacterMapping) (start : Nat),
      (attachVariationsGo variations start l).length = l.length := by
  intro l
  induction l with
  | nil => intro start; rfl
  | cons e rest ih =>
    intro start
    rw [attachVariationsGo, List.length_cons, List.length_cons, ih (start + 1)]

/-- Pointwise description of the variation-attachment pass: entry `j` of
the result is entry `j` of the input, updated with `readingVariations` at
ordinal `start + j` when it is kanji and unchanged otherwise. -/
theorem attachVariationsGo_get? (variations : List (List Char)) :
    ∀ (l : List CharacterMapping) (start j : Nat),
      (attachVariationsGo variations start l).get? j =
        (l.get? j).map fun e =>
          if e.isKanji then
            { e with readingVariations := some (attachedVariations variations (start + j)) }
          else e := by
  intro l
  induction l with
  | nil => intro start j; rfl
  | cons e rest ih =>
    intro start j
    cases j with
    | zero => rfl
    | succ j' =>
      rw [attachVariationsGo]
      show (attachVariationsGo variations (start + 1) rest).get? j' = _
      rw [ih (start + 1) j']
      show _ = (rest.get? j').map _
      congr 1
      funext x
      rw [show start + 1 + j' = start + (j' + 1) by omega]

/-- Claim C8: `createAdvancedTextMapping` returns the base mapping of
`createTextMapping` with identical `displayIndex`, `inputIndex`,
`displayChar`, `inputChar`, `isKanji` and `kanjiWord` in every entry; the
second pass only sets `readingVariations` — to the per-ordinal characters
of the generated reading variations — and only on entries marked
`isKanji`; non-kanji entries are returned unchanged. -/
theorem claim_C8 (env : Env) (d i : List Char) :
    (createAdvancedTextMapping env d i).displayText =
      (createTextMapping env d i).displayText ∧
    (createAdvancedTextMapping env d i).inputText =
      (createTextMapping env d i).inputText ∧
    (createAdvancedTextMapping env d i).totalInputLength =
      (createTextMapping env d i).totalInputLength ∧
    (createAdvancedTextMapping env d i).mappings.length =
      (createTextMapping env d i).mappings.length ∧
    (∀ (j : Nat) (ea eb : CharacterMapping),
      (createAdvancedTextMapping env d i).mappings.get? j = some ea →
      (createTextMapping env d i).mappings.get? j = some eb →
      ea.displayIndex = eb.displayIndex ∧ ea.inputIndex = eb.inputIndex ∧
      ea.displayChar = eb.displayChar ∧ ea.inputChar = eb.inputChar ∧
      ea.isKanji = eb.isKanji ∧ ea.kanjiWord = eb.kanjiWord ∧
      (eb.isKanji = true →
        ea.readingVariations =
          some (attachedVariations (env.generateReadingVariations d i) j)) ∧
      (eb.isKanji = false → ea = eb)) := by
  refine ⟨rfl, rfl, rfl, ?_, ?_⟩
  · rw [createAdvancedTextMapping_mappings, attachVariationsGo_length]
  · intro j ea eb hea heb
    rw [createAdvancedTextMapping_mappings, attachVariationsGo_get? _ _ 0 j, heb] at hea
    simp only [Option.map_some', Option.some.injEq] at hea
    subst hea
    by_cases hk : eb.isKanji = true
    · rw [if_pos hk]
      refine ⟨rfl, rfl, rfl, rfl, rfl, rfl, ?_, ?_⟩
      · intro _
        show some (attachedVariations _ (0 + j)) = _
        rw [Nat.zero_add]
      · intro hfalse
        rw [hk] at hfalse
        cases hfalse
    · rw [if_neg hk]
      exact ⟨rfl, rfl, rfl, rfl, rfl, rfl, fun htrue => absurd htrue hk, fun _ => rfl⟩

/-- Claim C8 witness: the first entry of the advanced 大学生 mapping keeps
every base field and only gains `readingVariations`. -/
theorem claim_C8_witness :
    eDai0adv.displayIndex = eDai0.displayIndex ∧
    eDai0adv.inputIndex = eDai0.inputIndex ∧
    eDai0adv.displayChar = eDai0.displayChar ∧
    eDai0adv.inputChar = eDai0.inputChar ∧
    eDai0adv.isKanji = eDai0.isKanji ∧
    eDai0adv.kanjiWord = eDai0.kanjiWord :=
  have h := (claim_C8 envDaigaku dDai iDai).2.2.2.2 0 eDai0adv eDai0
    (by decide) (by decide)
  ⟨h.1, h.2.1, h.2.2.1, h.2.2.2.1, h.2.2.2.2.1, h.2.2.2.2.2.1⟩

end KanaTower
